import Mathlib

/-!
Verification of the generic doubly-linked list of `src/list.h`.

The C library generates, per element type `T`, a node struct `list_T`
(`next`, `prev`, `entry`), a sentinel struct `list_sentinal_T`
(`head`, `tail`, `length`, `destructor`), and operations given as macros:
`_LIST_ADD` (behind `LIST_APPEND` / `LIST_PREPEND`), `LIST_REMOVE`,
`LIST_DEL`, `_LIST_POP` (behind `LIST_POPF` / `LIST_POPB`),
`_LIST_FOR_EACH` (read-only traversal), `_LIST_FOR_EACH_SAFE`
(deletion-safe traversal), `LIST_DESTROY`, and the constructor
`new_list_T`.

Shallow embedding conventions:
- Pointers are `Option Nat` (an address, or `none` for `NULL`).
- The C heap of malloc-ed nodes is an association list from addresses to
  nodes.  `malloc` always succeeds and hands out the fresh address
  `nextA` (the library itself never checks the result of `malloc`; the
  spec declares allocation failure fatal, so it is not a list error).
- Dereferencing `NULL` or a freed address is undefined behaviour in C;
  the embedding makes every dereference explicit and returns an error
  value (`MErr.nullDeref` / `MErr.useAfterFree`) in that case, so that
  theorems can talk about which executions are defined.
- The destructor function pointer is modelled by the flag `hasD`
  (destructor configured or `NULL`) together with `dlog`, the sequence
  of element values the destructor has been invoked on, in invocation
  order.  What the callback does internally is outside the model.
- `size_t` arithmetic: `length` is a `Nat`.  `++(list)->length` cannot
  overflow in any real execution (each node occupies more than one byte
  of a 2^64-byte address space), so increment is plain `+ 1`;
  `(list)->length--` at zero wraps around, which `sizeDec` reproduces.
- The error type also carries the spec-level error names
  (`EmptyListError`, `ForeignNodeError`) so that claims about them can
  be stated; the embedded code itself never produces these two values,
  because `src/list.h` has no error reporting of its own.
-/

/-- Machine-level outcomes of an operation of the embedded C code, plus
the two error names the specification asks for. -/
inductive MErr where
  /-- dereference of a NULL pointer (undefined behaviour in the C source) -/
  | nullDeref : MErr
  /-- dereference of a freed (or never-allocated) address -/
  | useAfterFree : MErr
  /-- read past the end of the initializer array in the constructor -/
  | oobRead : MErr
  /-- model artifact bounding the `LIST_DESTROY` loop; never returned when
      the fuel exceeds the number of nodes in the list -/
  | outOfFuel : MErr
  /-- the EmptyListError of the specification (never produced by the code) -/
  | emptyList : MErr
  /-- the ForeignNodeError of the specification (never produced by the code) -/
  | foreignNode : MErr
deriving DecidableEq, Repr

/-- Embeds `struct list_T`: one doubly-linked cell.  Field order in the C
struct is `next`, `prev`, `entry`. -/
structure Node (α : Type) where
  next : Option Nat
  prev : Option Nat
  entry : α
deriving DecidableEq, Repr

/-- The machine state seen by one generated list: the sentinel struct
`list_sentinal_T` (`head`, `tail`, `length`, destructor) together with
the heap of malloc-ed nodes, the malloc counter, and the destructor
invocation log. -/
structure St (α : Type) where
  heap : List (Nat × Node α)
  nextA : Nat
  head : Option Nat
  tail : Option Nat
  length : Nat
  hasD : Bool
  dlog : List α
deriving DecidableEq, Repr

instance {E A : Type} [DecidableEq E] [DecidableEq A] :
    DecidableEq (Except E A) := fun x y =>
  match x, y with
  | .error a, .error b =>
    if h : a = b then isTrue (by rw [h])
    else isFalse fun hh => h (by injection hh)
  | .ok a, .ok b =>
    if h : a = b then isTrue (by rw [h])
    else isFalse fun hh => h (by injection hh)
  | .error _, .ok _ => isFalse fun hh => Except.noConfusion hh
  | .ok _, .error _ => isFalse fun hh => Except.noConfusion hh

variable {α : Type}

/-- Addresses currently allocated in a heap. -/
def keys (h : List (Nat × Node α)) : List Nat := h.map Prod.fst

/-- Heap read at an address (`*p` where `p = some a`). -/
def hGet (h : List (Nat × Node α)) (a : Nat) : Option (Node α) :=
  match h with
  | [] => none
  | (b, n) :: t => if a = b then some n else hGet t a

/-- Heap store into a field of the node at an address (`p->field = v`).
A store to an absent address leaves the heap unchanged; every store in
the embedded operations is guarded by a successful dereference. -/
def hWrite (h : List (Nat × Node α)) (a : Nat) (f : Node α → Node α) :
    List (Nat × Node α) :=
  match h with
  | [] => []
  | (b, n) :: t => if a = b then (b, f n) :: t else (b, n) :: hWrite t a f

/-- `free(p)`: drop the node at an address from the heap. -/
def hDel (h : List (Nat × Node α)) (a : Nat) : List (Nat × Node α) :=
  match h with
  | [] => []
  | (b, n) :: t => if a = b then t else (b, n) :: hDel t a

/-- Dereference a pointer: fault on `NULL` or on a freed address. -/
def derefP (s : St α) (p : Option Nat) : Except MErr (Nat × Node α) :=
  match p with
  | none => .error .nullDeref
  | some a =>
    match hGet s.heap a with
    | none => .error .useAfterFree
    | some n => .ok (a, n)

/-- `size_t` decrement, as in `(list)->length--`: wraps at zero. -/
def sizeDec (n : Nat) : Nat := if n = 0 then 2 ^ 64 - 1 else n - 1

/-!
`_LIST_ADD(list, elem, top, bottom, direction, reverse)` is a single
macro instantiated twice: `LIST_APPEND` with
`(top, bottom, direction, reverse) = (tail, head, next, prev)` and
`LIST_PREPEND` with `(head, tail, prev, next)`.  The embedding keeps it
as a single function where the flag `tt` (`top` is `tail`) performs the
textual field substitution of the macro.
-/

/-- The `top` sentinel field of `_LIST_ADD` (`tail` for append, `head`
for prepend). -/
def getTop (s : St α) (tt : Bool) : Option Nat := if tt then s.tail else s.head

/-- The `bottom` sentinel field of `_LIST_ADD`. -/
def getBot (s : St α) (tt : Bool) : Option Nat := if tt then s.head else s.tail

/-- Store to the `top` sentinel field. -/
def setTop (s : St α) (tt : Bool) (v : Option Nat) : St α :=
  if tt then { s with tail := v } else { s with head := v }

/-- Store to the `bottom` sentinel field. -/
def setBot (s : St α) (tt : Bool) (v : Option Nat) : St α :=
  if tt then { s with head := v } else { s with tail := v }

/-- Store to the `direction` link field of a node (`next` for append). -/
def setDir (n : Node α) (tt : Bool) (v : Option Nat) : Node α :=
  if tt then { n with next := v } else { n with prev := v }

/-- Store to the `reverse` link field of a node (`prev` for append). -/
def setRev (n : Node α) (tt : Bool) (v : Option Nat) : Node α :=
  if tt then { n with prev := v } else { n with next := v }

/-- Embeds `_LIST_ADD`: malloc a node with both links NULL holding
`elem`; if `bottom` is NULL set it to the new node; if `top` is NULL set
it, else hook the node after the current `top` (`top->direction = new`,
`new->reverse = top`, `top = new`); then `++(list)->length`, whose value
(the new length) is the value of the statement expression. -/
def LIST_ADD (s : St α) (elem : α) (tt : Bool) : Except MErr (Nat × St α) :=
  let a := s.nextA
  let s0 : St α :=
    { s with heap := (a, ⟨none, none, elem⟩) :: s.heap, nextA := s.nextA + 1 }
  let s1 := if getBot s0 tt = none then setBot s0 tt (some a) else s0
  match getTop s1 tt with
  | none =>
    let s2 := setTop s1 tt (some a)
    .ok (s2.length + 1, { s2 with length := s2.length + 1 })
  | some t =>
    match hGet s1.heap t with
    | none => .error .useAfterFree
    | some _ =>
      let s2 : St α := { s1 with heap := hWrite s1.heap t (fun n => setDir n tt (some a)) }
      let s3 : St α := { s2 with heap := hWrite s2.heap a (fun n => setRev n tt (some t)) }
      let s4 := setTop s3 tt (some a)
      .ok (s4.length + 1, { s4 with length := s4.length + 1 })

/-- `LIST_APPEND(list, elem)` = `_LIST_ADD(list, elem, tail, head, next, prev)`. -/
def LIST_APPEND (s : St α) (elem : α) : Except MErr (Nat × St α) :=
  LIST_ADD s elem true

/-- `LIST_PREPEND(list, elem)` = `_LIST_ADD(list, elem, head, tail, prev, next)`. -/
def LIST_PREPEND (s : St α) (elem : α) : Except MErr (Nat × St α) :=
  LIST_ADD s elem false

/-- Step of `LIST_REMOVE`:
`if ((elem)->prev) (elem)->prev->next = (elem)->next;`
(`en` is the node `*elem`; the store faults if `en.prev` dangles). -/
def removePatchPrev (s : St α) (en : Node α) : Except MErr (St α) :=
  match en.prev with
  | none => pure s
  | some pa =>
    match hGet s.heap pa with
    | none => Except.error MErr.useAfterFree
    | some _ =>
      pure { s with heap := hWrite s.heap pa (fun n => { n with next := en.next }) }

/-- Step of `LIST_REMOVE`:
`if ((elem)->next) (elem)->next->prev = (elem)->prev;`
(`en2` is the node `*elem` re-read after the first store). -/
def removePatchNext (s : St α) (en2 : Node α) : Except MErr (St α) :=
  match en2.next with
  | none => pure s
  | some na =>
    match hGet s.heap na with
    | none => Except.error MErr.useAfterFree
    | some _ =>
      pure { s with heap := hWrite s.heap na (fun n => { n with prev := en2.prev }) }

/-- Step of `LIST_REMOVE`:
`if ((elem) == (list)->head) (list)->head = (list)->head->next;`. -/
def removeFixHead (s : St α) (elem : Option Nat) : Except MErr (St α) :=
  if elem = s.head then do
    let (_, hn) ← derefP s s.head
    pure { s with head := hn.next }
  else pure s

/-- Step of `LIST_REMOVE`:
`if ((elem) == (list)->tail) (list)->tail = (list)->tail->prev;`. -/
def removeFixTail (s : St α) (elem : Option Nat) : Except MErr (St α) :=
  if elem = s.tail then do
    let (_, tn) ← derefP s s.tail
    pure { s with tail := tn.prev }
  else pure s

/-- Embeds `LIST_REMOVE(list, elem)`: the four guarded statements above
in order, then `(list)->length--` — the value of the statement
expression is the value of the final post-decrement, i.e. the length
BEFORE the call. -/
def LIST_REMOVE (s : St α) (elem : Option Nat) : Except MErr (Nat × St α) := do
  let (_, en) ← derefP s elem
  let s1 ← removePatchPrev s en
  let (_, en2) ← derefP s1 elem
  let s2 ← removePatchNext s1 en2
  let s3 ← removeFixHead s2 elem
  let s4 ← removeFixTail s3 elem
  pure (s4.length, { s4 with length := sizeDec s4.length })

/-- Embeds `LIST_DEL(list, elem)`: `LIST_REMOVE(list, elem);` then
`if (list->destructor) list->destructor(elem->entry);` then
`free(elem);`. -/
def LIST_DEL (s : St α) (elem : Option Nat) : Except MErr (St α) := do
  let (_, s1) ← LIST_REMOVE s elem
  let s2 ←
    if s1.hasD then do
      let (_, en) ← derefP s1 elem
      pure { s1 with dlog := s1.dlog ++ [en.entry] }
    else pure s1
  match elem with
  | none => pure s2
  | some a => pure { s2 with heap := hDel s2.heap a }

/-- Embeds `_LIST_POP(list, sentinal)`: capture `temp = list->sentinal`,
`LIST_REMOVE(list, temp)`, read `temp->entry`, `free(temp)`, and return
the captured entry.  `fromHead` selects the sentinel field (`head` for
`LIST_POPF`, `tail` for `LIST_POPB`). -/
def LIST_POP (s : St α) (fromHead : Bool) : Except MErr (α × St α) := do
  let temp := if fromHead then s.head else s.tail
  let (_, s1) ← LIST_REMOVE s temp
  let (ta, tn) ← derefP s1 temp
  pure (tn.entry, { s1 with heap := hDel s1.heap ta })

/-- `LIST_POPF(list)` = `_LIST_POP(list, head)`. -/
def LIST_POPF (s : St α) : Except MErr (α × St α) := LIST_POP s true

/-- `LIST_POPB(list)` = `_LIST_POP(list, tail)`. -/
def LIST_POPB (s : St α) : Except MErr (α × St α) := LIST_POP s false

/-- Embeds the visit sequence of `_LIST_FOR_EACH(list, var, sentinal,
direction, callback)`: start at the chosen sentinel field and follow the
`direction` link (`next` when `useNext`) while the cursor is non-NULL,
collecting the visited addresses.  The C while-loop has no fuel; the
`fuel` argument only makes the function total (a dangling link or a
cycle, impossible in well-formed states, would make the C loop fault or
diverge). -/
def walkDir (h : List (Nat × Node α)) (useNext : Bool) :
    Option Nat → Nat → List Nat
  | none, _ => []
  | some _, 0 => []
  | some a, fuel + 1 =>
    match hGet h a with
    | none => []
    | some n => a :: walkDir h useNext (if useNext then n.next else n.prev) fuel

theorem walkDir_none (h : List (Nat × Node α)) (useNext : Bool) (fuel : Nat) :
    walkDir h useNext none fuel = [] := by
  cases fuel <;> rfl

theorem walkDir_some (h : List (Nat × Node α)) (useNext : Bool) (a : Nat)
    (f : Nat) :
    walkDir h useNext (some a) (f + 1) =
      (match hGet h a with
       | none => []
       | some n =>
         a :: walkDir h useNext (if useNext then n.next else n.prev) f) := rfl

/-- The element values stored at a sequence of addresses (the values a
traversal starting there visits). -/
def valsOf (h : List (Nat × Node α)) (addrs : List Nat) : List α :=
  addrs.filterMap fun a => (hGet h a).map Node.entry

/-- Embeds the loop of `_LIST_FOR_EACH_SAFE(list, var, temp, head, next,
callback)` with callback `LIST_DEL(list, var)`, i.e. the body of
`LIST_DESTROY`: while `var` is non-NULL run the callback, then
`var = temp` and, if `var` is non-NULL, `temp = var->next` (read in the
heap left by the callback). -/
def destroyLoop (fuel : Nat) (s : St α) (var temp : Option Nat) :
    Except MErr (St α) :=
  match fuel with
  | 0 => .error .outOfFuel
  | f + 1 =>
    match var with
    | none => .ok s
    | some _ => do
      let s1 ← LIST_DEL s var
      match temp with
      | none => destroyLoop f s1 none temp
      | some a => do
        let (_, n) ← derefP s1 (some a)
        destroyLoop f s1 (some a) n.next

/-- Embeds `LIST_DESTROY(list)` =
`LIST_FOR_EACH_SAFE(list, var, temp, \x7b LIST_DEL(list, var); \x7d)`:
`var = list->head; temp = NULL; if (var) temp = var->next;` then the
deletion-safe loop.  The fuel `length + 1` covers one iteration per
listed node plus the final emptiness check. -/
def LIST_DESTROY (s : St α) : Except MErr (St α) :=
  match s.head with
  | none => destroyLoop (s.length + 1) s none none
  | some a => do
    let (_, n) ← derefP s (some a)
    destroyLoop (s.length + 1) s (some a) n.next

/-- The `for (size_t i = 0; i < len; i++) LIST_APPEND(&data, initializer[i]);`
loop of the constructor, recursing on the remaining count `len - i`.
Reading past the end of the initializer array is undefined behaviour in
C and faults in the embedding. -/
def initLoop (arr : List α) : Nat → Nat → St α → Except MErr (St α)
  | _, 0, s => .ok s
  | i, rem + 1, s =>
    match arr[i]? with
    | none => .error .oobRead
    | some v =>
      match LIST_APPEND s v with
      | .error e => .error e
      | .ok (_, s1) => initLoop arr (i + 1) rem s1

/-- Embeds `new_list_T(initializer, len, d)` (macro `LIST_CONSTRUCTOR`):
build the empty sentinel with destructor `d`; if `initializer` is NULL
return it, else append `initializer[i]` for `i = 0 .. len - 1`.  The
destructor pointer is modelled by the flag `d` (configured or NULL). -/
def new_list (initializer : Option (List α)) (len : Nat) (d : Bool) :
    Except MErr (St α) :=
  let data : St α :=
    { heap := [], nextA := 0, head := none, tail := none, length := 0,
      hasD := d, dlog := [] }
  match initializer with
  | none => .ok data
  | some arr => initLoop arr 0 len data

/-!
Representation invariant: the well-formed states of one list.  `seg h pr
addrs nx` says the addresses `addrs` form a consecutive doubly-linked
segment in heap `h` whose first node has `prev = pr` and whose last node
has `next = nx`, with consecutive nodes linked both ways.
-/

/-- The head of an address list as a pointer, with a default for the
empty list. -/
def headOr (l : List Nat) (d : Option Nat) : Option Nat :=
  match l with
  | [] => d
  | b :: _ => some b

/-- The last element of an address list as a pointer, with a default for
the empty list. -/
def lastOr : List Nat → Option Nat → Option Nat
  | [], d => d
  | a :: t, _ => lastOr t (some a)

theorem lastOr_eq_getLast? (l : List Nat) :
    lastOr l none = l.getLast? := by
  have key : ∀ (l : List Nat) (a : Nat), lastOr l (some a) = (a :: l).getLast? := by
    intro l
    induction l with
    | nil => intro a; rfl
    | cons b t ih =>
      intro a
      rw [List.getLast?_cons_cons]
      exact ih b
  cases l with
  | nil => rfl
  | cons a t => exact key t a

/-- Doubly-linked segment predicate (decidable). -/
def seg (h : List (Nat × Node α)) : Option Nat → List Nat → Option Nat → Bool
  | _, [], _ => true
  | pr, a :: rest, nx =>
    match hGet h a with
    | none => false
    | some n =>
      decide (n.prev = pr) && decide (n.next = headOr rest nx) &&
        seg h (some a) rest nx

/-- The structural invariant of a list state: `addrs` are the member
node addresses from head to tail.  Distinct addresses, sentinel fields
at the two boundaries, exact length accounting, a consistent
doubly-linked chain, well-formed heap bookkeeping (distinct allocated
addresses, all below the malloc counter). -/
def Wf (s : St α) (addrs : List Nat) : Prop :=
  addrs.Nodup ∧
  s.head = addrs.head? ∧
  s.tail = addrs.getLast? ∧
  s.length = addrs.length ∧
  seg s.heap none addrs none = true ∧
  (keys s.heap).Nodup ∧
  (∀ k ∈ keys s.heap, k < s.nextA)

instance (s : St α) (addrs : List Nat) : Decidable (Wf s addrs) := by
  unfold Wf
  infer_instance

/-! Basic heap lemmas. -/

theorem hGet_eq_none_of_not_mem {h : List (Nat × Node α)} {a : Nat}
    (ha : a ∉ keys h) : hGet h a = none := by
  induction h with
  | nil => rfl
  | cons p t ih =>
    obtain ⟨b, n⟩ := p
    simp only [keys, List.map_cons, List.mem_cons, not_or] at ha
    simp only [hGet, if_neg ha.1]
    exact ih (by simpa [keys] using ha.2)

theorem mem_keys_of_hGet {h : List (Nat × Node α)} {a : Nat} {n : Node α}
    (hg : hGet h a = some n) : a ∈ keys h := by
  by_contra hmem
  rw [hGet_eq_none_of_not_mem hmem] at hg
  exact Option.noConfusion hg

@[simp]
theorem keys_hWrite (h : List (Nat × Node α)) (a : Nat) (f : Node α → Node α) :
    keys (hWrite h a f) = keys h := by
  induction h with
  | nil => rfl
  | cons p t ih =>
    obtain ⟨b, n⟩ := p
    by_cases hab : a = b
    · simp [hWrite, keys, hab]
    · simp only [hWrite, if_neg (fun hh => hab hh), keys, List.map_cons]
      rw [show keys (hWrite t a f) = List.map Prod.fst (hWrite t a f) from rfl]
        at ih
      rw [ih]
      rfl

theorem hGet_hWrite_ne (h : List (Nat × Node α)) (a b : Nat)
    (f : Node α → Node α) (hne : b ≠ a) :
    hGet (hWrite h a f) b = hGet h b := by
  induction h with
  | nil => rfl
  | cons p t ih =>
    obtain ⟨c, n⟩ := p
    by_cases hac : a = c
    · subst hac
      simp [hWrite, hGet, if_neg hne]
    · by_cases hbc : b = c <;> simp [hWrite, hGet, hac, hbc, ih]

theorem hGet_hWrite_self {h : List (Nat × Node α)} {a : Nat} {n : Node α}
    (f : Node α → Node α) (hg : hGet h a = some n) :
    hGet (hWrite h a f) a = some (f n) := by
  induction h with
  | nil => exact Option.noConfusion hg
  | cons p t ih =>
    obtain ⟨c, m⟩ := p
    by_cases hac : a = c
    · subst hac
      simp only [hGet, if_pos rfl] at hg
      simp [hWrite, hGet, Option.some_inj.mp hg]
    · simp only [hGet, if_neg hac] at hg
      simp [hWrite, hGet, hac, ih hg]

theorem hGet_hDel_ne (h : List (Nat × Node α)) (a b : Nat) (hne : b ≠ a) :
    hGet (hDel h a) b = hGet h b := by
  induction h with
  | nil => rfl
  | cons p t ih =>
    obtain ⟨c, n⟩ := p
    by_cases hac : a = c
    · subst hac
      simp [hDel, hGet, if_neg hne]
    · by_cases hbc : b = c <;> simp [hDel, hGet, hac, hbc, ih]

theorem keys_hDel_subset (h : List (Nat × Node α)) (a : Nat) :
    ∀ k ∈ keys (hDel h a), k ∈ keys h := by
  induction h with
  | nil => intro k hk; exact hk
  | cons p t ih =>
    obtain ⟨c, n⟩ := p
    intro k hk
    by_cases hac : a = c
    · subst hac
      simp only [hDel, if_pos rfl] at hk
      exact List.mem_cons_of_mem _ hk
    · simp only [hDel, if_neg hac, keys, List.map_cons, List.mem_cons] at hk
      rcases hk with hk | hk
      · simp [keys, hk]
      · exact List.mem_cons_of_mem _ (ih k hk)

theorem keys_hDel_nodup {h : List (Nat × Node α)} (a : Nat)
    (hn : (keys h).Nodup) : (keys (hDel h a)).Nodup := by
  induction h with
  | nil => exact hn
  | cons p t ih =>
    obtain ⟨c, n⟩ := p
    simp only [keys, List.map_cons, List.nodup_cons] at hn
    by_cases hac : a = c
    · subst hac
      simpa [hDel, keys] using hn.2
    · simp only [hDel, if_neg hac, keys, List.map_cons, List.nodup_cons]
      refine ⟨fun hmem => hn.1 (keys_hDel_subset t a c hmem), ih hn.2⟩

theorem hGet_hDel_self {h : List (Nat × Node α)} {a : Nat}
    (hn : (keys h).Nodup) : hGet (hDel h a) a = none := by
  induction h with
  | nil => rfl
  | cons p t ih =>
    obtain ⟨c, n⟩ := p
    simp only [keys, List.map_cons, List.nodup_cons] at hn
    by_cases hac : a = c
    · subst hac
      simp only [hDel, if_pos rfl]
      exact hGet_eq_none_of_not_mem hn.1
    · simp [hDel, hGet, hac, ih hn.2]

/-! Lemmas about `seg`. -/

@[simp]
theorem seg_nil (h : List (Nat × Node α)) (pr nx : Option Nat) :
    seg h pr [] nx = true := rfl

theorem headOr_append (l1 l2 : List Nat) (d : Option Nat) :
    headOr (l1 ++ l2) d = headOr l1 (headOr l2 d) := by
  cases l1 <;> rfl

theorem lastOr_cons (a : Nat) (l : List Nat) (d : Option Nat) :
    lastOr (a :: l) d = lastOr l (some a) := rfl

theorem lastOr_append (l1 l2 : List Nat) (d : Option Nat) :
    lastOr (l1 ++ l2) d = lastOr l2 (lastOr l1 d) := by
  induction l1 generalizing d with
  | nil => rfl
  | cons a t ih => rw [List.cons_append, lastOr_cons, ih, lastOr_cons]

theorem seg_cons (h : List (Nat × Node α)) (pr nx : Option Nat) (a : Nat)
    (rest : List Nat) :
    seg h pr (a :: rest) nx =
      (match hGet h a with
       | none => false
       | some n =>
         decide (n.prev = pr) && decide (n.next = headOr rest nx) &&
           seg h (some a) rest nx) := rfl

theorem seg_append (h : List (Nat × Node α)) (pr nx : Option Nat)
    (l1 l2 : List Nat) :
    seg h pr (l1 ++ l2) nx =
      (seg h pr l1 (headOr l2 nx) && seg h (lastOr l1 pr) l2 nx) := by
  induction l1 generalizing pr with
  | nil => simp [lastOr]
  | cons a t ih =>
    rw [List.cons_append, seg_cons, seg_cons, lastOr_cons]
    cases hGet h a with
    | none => simp
    | some n =>
      rw [headOr_append, ih (some a)]
      simp [Bool.and_assoc]

theorem seg_congr {h h2 : List (Nat × Node α)} (pr nx : Option Nat)
    {l : List Nat} (hagree : ∀ a ∈ l, hGet h2 a = hGet h a) :
    seg h2 pr l nx = seg h pr l nx := by
  induction l generalizing pr with
  | nil => rfl
  | cons a t ih =>
    rw [seg_cons, seg_cons, hagree a (List.mem_cons_self a t)]
    cases hGet h a with
    | none => rfl
    | some n => rw [ih (some a) fun b hb => hagree b (List.mem_cons_of_mem a hb)]

theorem seg_mem {h : List (Nat × Node α)} {pr nx : Option Nat}
    {l : List Nat} (hs : seg h pr l nx = true) :
    ∀ a ∈ l, ∃ n, hGet h a = some n := by
  induction l generalizing pr with
  | nil => intro a ha; exact absurd ha (List.not_mem_nil a)
  | cons b t ih =>
    intro a ha
    rw [seg_cons] at hs
    cases hg : hGet h b with
    | none => rw [hg] at hs; exact Bool.noConfusion hs
    | some n =>
      rw [hg] at hs
      simp only [Bool.and_eq_true] at hs
      rcases List.mem_cons.mp ha with rfl | ha
      · exact ⟨n, hg⟩
      · exact ih hs.2 a ha

theorem seg_at (l1 l2 : List Nat) {h : List (Nat × Node α)}
    {pr nx : Option Nat} {a : Nat}
    (hs : seg h pr (l1 ++ a :: l2) nx = true) :
    ∃ n, hGet h a = some n ∧ n.prev = lastOr l1 pr ∧
      n.next = headOr l2 nx ∧
      seg h pr l1 (some a) = true ∧ seg h (some a) l2 nx = true := by
  rw [seg_append, Bool.and_eq_true, seg_cons] at hs
  obtain ⟨h1, h2⟩ := hs
  cases hg : hGet h a with
  | none => rw [hg] at h2; exact Bool.noConfusion h2
  | some n =>
    rw [hg] at h2
    simp only [Bool.and_eq_true, decide_eq_true_eq] at h2
    refine ⟨n, rfl, h2.1.1, h2.1.2, ?_, h2.2⟩
    simpa [headOr] using h1

/-! Reduction helpers for the `Except` monad and the heap. -/

@[simp]
theorem exceptOkBind {E A B : Type} (a : A) (f : A → Except E B) :
    (Except.ok a >>= f) = f a := rfl

@[simp]
theorem exceptErrBind {E A B : Type} (e : E) (f : A → Except E B) :
    ((Except.error e : Except E A) >>= f) = Except.error e := rfl

@[simp]
theorem exceptPure {E A : Type} (a : A) :
    (pure a : Except E A) = Except.ok a := rfl

@[simp]
theorem hGet_cons (a b : Nat) (n : Node α) (h : List (Nat × Node α)) :
    hGet ((a, n) :: h) b = if b = a then some n else hGet h b := rfl

theorem derefP_some {s : St α} {a : Nat} {n : Node α}
    (hg : hGet s.heap a = some n) : derefP s (some a) = .ok (a, n) := by
  simp [derefP, hg]

@[simp]
theorem derefP_none (s : St α) : derefP s none = .error .nullDeref := rfl

/-! Accessors for `Wf` facts. -/

theorem Wf.mem_heap {s : St α} {addrs : List Nat} (hwf : Wf s addrs)
    {a : Nat} (ha : a ∈ addrs) : ∃ n, hGet s.heap a = some n :=
  seg_mem hwf.2.2.2.2.1 a ha

theorem Wf.addr_lt {s : St α} {addrs : List Nat} (hwf : Wf s addrs)
    {a : Nat} (ha : a ∈ addrs) : a < s.nextA := by
  obtain ⟨n, hn⟩ := hwf.mem_heap ha
  exact hwf.2.2.2.2.2.2 a (mem_keys_of_hGet hn)

theorem Wf.nextA_not_mem {s : St α} {addrs : List Nat} (hwf : Wf s addrs) :
    s.nextA ∉ keys s.heap := by
  intro hmem
  exact absurd (hwf.2.2.2.2.2.2 _ hmem) (lt_irrefl s.nextA)

theorem Wf.nextA_not_mem_addrs {s : St α} {addrs : List Nat}
    (hwf : Wf s addrs) : s.nextA ∉ addrs := by
  intro hmem
  exact absurd (hwf.addr_lt hmem) (lt_irrefl s.nextA)

/-! Lemmas about `valsOf`. -/

@[simp]
theorem valsOf_nil (h : List (Nat × Node α)) : valsOf h [] = [] := rfl

theorem valsOf_cons (h : List (Nat × Node α)) (a : Nat) (l : List Nat) :
    valsOf h (a :: l) =
      (match hGet h a with
       | none => valsOf h l
       | some n => n.entry :: valsOf h l) := by
  simp only [valsOf, List.filterMap_cons]
  cases hGet h a <;> rfl

theorem valsOf_append (h : List (Nat × Node α)) (l1 l2 : List Nat) :
    valsOf h (l1 ++ l2) = valsOf h l1 ++ valsOf h l2 :=
  List.filterMap_append l1 l2 _

theorem valsOf_congr {h h2 : List (Nat × Node α)} {l : List Nat}
    (hagree : ∀ a ∈ l, (hGet h2 a).map Node.entry = (hGet h a).map Node.entry) :
    valsOf h2 l = valsOf h l := by
  induction l with
  | nil => rfl
  | cons a t ih =>
    rw [valsOf_cons, valsOf_cons]
    have ha := hagree a (List.mem_cons_self a t)
    have ht := ih fun b hb => hagree b (List.mem_cons_of_mem a hb)
    cases h2g : hGet h2 a <;> cases hg : hGet h a <;>
      rw [h2g, hg] at ha <;> simp_all

/-! Evaluation lemmas for `_LIST_ADD`. -/

theorem LIST_ADD_eval_empty (s : St α) (e : α) (tt : Bool)
    (hhd : s.head = none) (htl : s.tail = none) :
    LIST_ADD s e tt = .ok (s.length + 1,
      { s with
        heap := (s.nextA, ⟨none, none, e⟩) :: s.heap,
        nextA := s.nextA + 1, head := some s.nextA, tail := some s.nextA,
        length := s.length + 1 }) := by
  cases tt <;>
    simp [LIST_ADD, getBot, getTop, setBot, setTop, hhd, htl]

theorem LIST_ADD_eval_append (s : St α) (e : α) (t : Nat) (tn : Node α)
    (hshead : s.head ≠ none) (htl1 : s.tail = some t) (htne : t ≠ s.nextA)
    (htn : hGet s.heap t = some tn) :
    LIST_APPEND s e = .ok (s.length + 1,
      { s with
        heap := hWrite (hWrite ((s.nextA, ⟨none, none, e⟩) :: s.heap) t
            (fun n => { n with next := some s.nextA })) s.nextA
            (fun n => { n with prev := some t }),
        nextA := s.nextA + 1, tail := some s.nextA,
        length := s.length + 1 }) := by
  simp [LIST_APPEND, LIST_ADD, getBot, getTop, setBot, setTop, setDir, setRev,
    hshead, htl1, htne, htn]

theorem LIST_ADD_eval_prepend (s : St α) (e : α) (b : Nat) (bn : Node α)
    (hstail : s.tail ≠ none) (hhd1 : s.head = some b) (hbne : b ≠ s.nextA)
    (hbn : hGet s.heap b = some bn) :
    LIST_PREPEND s e = .ok (s.length + 1,
      { s with
        heap := hWrite (hWrite ((s.nextA, ⟨none, none, e⟩) :: s.heap) b
            (fun n => { n with prev := some s.nextA })) s.nextA
            (fun n => { n with next := some b }),
        nextA := s.nextA + 1, head := some s.nextA,
        length := s.length + 1 }) := by
  simp [LIST_PREPEND, LIST_ADD, getBot, getTop, setBot, setTop, setDir, setRev,
    hstail, hhd1, hbne, hbn]

/-! Preservation of `Wf` by `LIST_APPEND` (the `_LIST_ADD` instance with
`(top, bottom, direction, reverse) = (tail, head, next, prev)`). -/

theorem append_ok (s : St α) (addrs : List Nat) (e : α) (hwf : Wf s addrs) :
    ∃ s2, LIST_APPEND s e = .ok (s.length + 1, s2) ∧
      Wf s2 (addrs ++ [s.nextA]) ∧
      s2.length = s.length + 1 ∧
      s2.tail = some s.nextA ∧
      s2.head = (if addrs = [] then some s.nextA else s.head) ∧
      hGet s2.heap s.nextA = some ⟨none, s.tail, e⟩ ∧
      (∀ t tn, s.tail = some t → hGet s.heap t = some tn →
        hGet s2.heap t = some { tn with next := some s.nextA }) ∧
      valsOf s2.heap (addrs ++ [s.nextA]) = valsOf s.heap addrs ++ [e] ∧
      s2.nextA = s.nextA + 1 ∧ s2.hasD = s.hasD ∧ s2.dlog = s.dlog := by
  obtain ⟨hnd, hhd, htl, hlen, hseg, hknd, hklt⟩ := hwf
  have hwf' : Wf s addrs := ⟨hnd, hhd, htl, hlen, hseg, hknd, hklt⟩
  have hfresh : s.nextA ∉ keys s.heap := hwf'.nextA_not_mem
  have hfreshA : s.nextA ∉ addrs := hwf'.nextA_not_mem_addrs
  have hknd2 : (s.nextA :: keys s.heap).Nodup :=
    List.nodup_cons.mpr ⟨hfresh, hknd⟩
  have hklt2 : ∀ k ∈ s.nextA :: keys s.heap, k < s.nextA + 1 := by
    intro k hk
    rcases List.mem_cons.mp hk with rfl | hk
    · omega
    · exact Nat.lt_succ_of_lt (hklt k hk)
  cases addrs with
  | nil =>
    have hhd0 : s.head = none := by simpa using hhd
    have htl0 : s.tail = none := by simpa using htl
    refine ⟨{ s with
        heap := (s.nextA, ⟨none, none, e⟩) :: s.heap,
        nextA := s.nextA + 1, head := some s.nextA, tail := some s.nextA,
        length := s.length + 1 },
      LIST_ADD_eval_empty s e true hhd0 htl0, ?_, by simp, by simp, by simp,
      by simp [htl0], ?_, ?_, by simp, by simp, by simp⟩
    · exact ⟨by simp, by simp, by simp, by simpa using hlen,
        by simp [seg_cons, headOr], hknd2, hklt2⟩
    · intro t tn hts
      rw [htl0] at hts
      exact absurd hts (by simp)
    · simp [valsOf_cons, htl0]
  | cons b rest =>
    -- the list is non-empty: its last node gets its `next` patched
    have hne : b :: rest ≠ [] := by simp
    obtain ⟨l1, t, hlt⟩ : ∃ l1 t, b :: rest = l1 ++ [t] := by
      rcases List.eq_nil_or_concat (b :: rest) with hh | ⟨l1, t, hh⟩
      · exact absurd hh hne
      · exact ⟨l1, t, by simpa [List.concat_eq_append] using hh⟩
    rw [hlt] at hnd hhd htl hlen hseg hfreshA ⊢
    have htl1 : s.tail = some t := by
      rw [htl]
      simp [List.getLast?_concat]
    have hhdne : s.head ≠ none := by
      rw [hhd]
      cases l1 <;> simp
    obtain ⟨tn, htn, htnp, htnn, hseg1, -⟩ := seg_at l1 [] hseg
    have htmem : t ∈ keys s.heap := mem_keys_of_hGet htn
    have htne : t ≠ s.nextA := fun hh => hfresh (hh ▸ htmem)
    have hanotl1 : s.nextA ∉ l1 := fun hh => hfreshA (by simp [hh])
    have htnotl1 : t ∉ l1 := by
      intro hh
      exact (List.nodup_append.mp hnd).2.2 hh (List.mem_singleton_self t)
    -- heap after malloc, then `tail->next = new`, then `new->prev = tail`
    set h0 := (s.nextA, (⟨none, none, e⟩ : Node α)) :: s.heap with hh0
    set h1 := hWrite h0 t (fun n => { n with next := some s.nextA }) with hh1
    set h2 := hWrite h1 s.nextA (fun n => { n with prev := some t }) with hh2
    have hg0t : hGet h0 t = some tn := by
      rw [hh0, hGet_cons, if_neg htne, htn]
    have hg1t : hGet h1 t = some { tn with next := some s.nextA } := by
      rw [hh1]
      exact hGet_hWrite_self _ hg0t
    have hg2t : hGet h2 t = some { tn with next := some s.nextA } := by
      rw [hh2, hGet_hWrite_ne _ _ _ _ htne, hg1t]
    have hg2a : hGet h2 s.nextA = some ⟨none, some t, e⟩ := by
      have hg0a : hGet h0 s.nextA = some ⟨none, none, e⟩ := by
        rw [hh0, hGet_cons, if_pos rfl]
      have hg1a : hGet h1 s.nextA = some ⟨none, none, e⟩ := by
        rw [hh1, hGet_hWrite_ne _ _ _ _ (Ne.symm htne), hg0a]
      rw [hh2, hGet_hWrite_self _ hg1a]
    have hg2other : ∀ x, x ≠ t → x ≠ s.nextA → hGet h2 x = hGet s.heap x := by
      intro x hxt hxa
      rw [hh2, hGet_hWrite_ne _ _ _ _ hxa, hh1, hGet_hWrite_ne _ _ _ _ hxt,
        hh0, hGet_cons, if_neg hxa]
    have hkeys2 : keys h2 = s.nextA :: keys s.heap := by
      rw [hh2, keys_hWrite, hh1, keys_hWrite, hh0]
      rfl
    have hagree : ∀ x ∈ l1, hGet h2 x = hGet s.heap x := fun x hx =>
      hg2other x (fun hh => htnotl1 (hh ▸ hx)) (fun hh => hanotl1 (hh ▸ hx))
    refine ⟨{ s with
        heap := h2, nextA := s.nextA + 1, tail := some s.nextA,
        length := s.length + 1 },
      LIST_ADD_eval_append s e t tn hhdne htl1 htne htn, ?_,
      by simp, by simp, by simp, by rw [htl1]; exact hg2a, ?_, ?_,
      by simp, by simp, by simp⟩
    · -- well-formedness of the result
      refine ⟨?_, ?_, ?_, ?_, ?_, by rw [hkeys2]; exact hknd2, ?_⟩
      · exact List.nodup_append.mpr ⟨hnd, List.nodup_singleton _,
          fun x hx hx2 => hfreshA ((List.mem_singleton.mp hx2) ▸ hx)⟩
      · rw [hhd]
        cases l1 <;> simp
      · simp [List.getLast?_concat]
      · simpa using hlen
      · -- the new chain
        rw [seg_append, Bool.and_eq_true]
        constructor
        · rw [show headOr [s.nextA] none = some s.nextA from rfl, seg_append,
            Bool.and_eq_true]
          constructor
          · rw [show headOr [t] (some s.nextA) = some t from rfl,
              seg_congr (h := s.heap) none (some t) hagree]
            exact hseg1
          · rw [seg_cons, hg2t]
            simp [headOr, htnp]
        · rw [show lastOr (l1 ++ [t]) none = some t by rw [lastOr_append]; rfl,
            seg_cons, hg2a]
          simp [headOr]
      · intro k hk
        rw [hkeys2] at hk
        exact hklt2 k hk
    · intro t2 tn2 hts2 htn2
      rw [htl1] at hts2
      injection hts2 with hts2
      rw [← hts2] at htn2 ⊢
      rw [htn] at htn2
      injection htn2 with htn2
      rw [← htn2]
      exact hg2t
    · -- values: old entries unchanged, the new one at the end
      rw [valsOf_append, valsOf_append]
      have hv1 : valsOf h2 l1 = valsOf s.heap l1 := valsOf_congr fun x hx => by
        rw [hagree x hx]
      have hv2 : valsOf h2 [t] = valsOf s.heap [t] := by
        rw [valsOf_cons, valsOf_cons, hg2t, htn]
        rfl
      rw [hv1, hv2, ← valsOf_append]
      rw [show valsOf h2 [s.nextA] = [e] by rw [valsOf_cons, hg2a]; rfl]


/-! Preservation of `Wf` by `LIST_PREPEND` (the `_LIST_ADD` instance with
`(top, bottom, direction, reverse) = (head, tail, prev, next)`). -/

theorem prepend_ok (s : St α) (addrs : List Nat) (e : α) (hwf : Wf s addrs) :
    ∃ s2, LIST_PREPEND s e = .ok (s.length + 1, s2) ∧
      Wf s2 (s.nextA :: addrs) ∧
      s2.length = s.length + 1 ∧
      s2.head = some s.nextA ∧
      s2.tail = (if addrs = [] then some s.nextA else s.tail) ∧
      hGet s2.heap s.nextA = some ⟨s.head, none, e⟩ ∧
      (∀ b bn, s.head = some b → hGet s.heap b = some bn →
        hGet s2.heap b = some { bn with prev := some s.nextA }) ∧
      valsOf s2.heap (s.nextA :: addrs) = e :: valsOf s.heap addrs ∧
      s2.nextA = s.nextA + 1 ∧ s2.hasD = s.hasD ∧ s2.dlog = s.dlog := by
  obtain ⟨hnd, hhd, htl, hlen, hseg, hknd, hklt⟩ := hwf
  have hwf2 : Wf s addrs := ⟨hnd, hhd, htl, hlen, hseg, hknd, hklt⟩
  have hfresh : s.nextA ∉ keys s.heap := hwf2.nextA_not_mem
  have hfreshA : s.nextA ∉ addrs := hwf2.nextA_not_mem_addrs
  have hknd2 : (s.nextA :: keys s.heap).Nodup :=
    List.nodup_cons.mpr ⟨hfresh, hknd⟩
  have hklt2 : ∀ k ∈ s.nextA :: keys s.heap, k < s.nextA + 1 := by
    intro k hk
    rcases List.mem_cons.mp hk with rfl | hk
    · omega
    · exact Nat.lt_succ_of_lt (hklt k hk)
  cases addrs with
  | nil =>
    have hhd0 : s.head = none := by simpa using hhd
    have htl0 : s.tail = none := by simpa using htl
    refine ⟨{ s with
        heap := (s.nextA, ⟨none, none, e⟩) :: s.heap,
        nextA := s.nextA + 1, head := some s.nextA, tail := some s.nextA,
        length := s.length + 1 },
      LIST_ADD_eval_empty s e false hhd0 htl0, ?_, by simp, by simp, by simp,
      by simp [hhd0], ?_, ?_, by simp, by simp, by simp⟩
    · exact ⟨by simp, by simp, by simp, by simpa using hlen,
        by simp [seg_cons, headOr], hknd2, hklt2⟩
    · intro b bn hbs
      rw [hhd0] at hbs
      exact absurd hbs (by simp)
    · simp [valsOf_cons, hhd0]
  | cons b rest =>
    -- the list is non-empty: its head node gets its `prev` patched
    have hhd1 : s.head = some b := by simpa using hhd
    have htlne : s.tail ≠ none := by
      rw [htl]
      rcases List.eq_nil_or_concat (b :: rest) with hh | ⟨l1, t, hh⟩
      · exact absurd hh (by simp)
      · rw [hh]
        simp [List.concat_eq_append, List.getLast?_concat]
    rw [seg_cons] at hseg
    cases hbn : hGet s.heap b with
    | none => rw [hbn] at hseg; exact Bool.noConfusion hseg
    | some bn =>
    rw [hbn] at hseg
    simp only [Bool.and_eq_true, decide_eq_true_eq] at hseg
    obtain ⟨⟨hbnp, hbnn⟩, hsegr⟩ := hseg
    have hbmem : b ∈ keys s.heap := mem_keys_of_hGet hbn
    have hbne : b ≠ s.nextA := fun hh => hfresh (hh ▸ hbmem)
    have hnotrest : b ∉ rest := (List.nodup_cons.mp hnd).1
    have hanotrest : s.nextA ∉ rest := fun hh => hfreshA (by simp [hh])
    set h0 := (s.nextA, (⟨none, none, e⟩ : Node α)) :: s.heap with hh0
    set h1 := hWrite h0 b (fun n => { n with prev := some s.nextA }) with hh1
    set h2 := hWrite h1 s.nextA (fun n => { n with next := some b }) with hh2
    have hg0b : hGet h0 b = some bn := by
      rw [hh0, hGet_cons, if_neg hbne, hbn]
    have hg1b : hGet h1 b = some { bn with prev := some s.nextA } := by
      rw [hh1]
      exact hGet_hWrite_self _ hg0b
    have hg2b : hGet h2 b = some { bn with prev := some s.nextA } := by
      rw [hh2, hGet_hWrite_ne _ _ _ _ hbne, hg1b]
    have hg2a : hGet h2 s.nextA = some ⟨some b, none, e⟩ := by
      have hg0a : hGet h0 s.nextA = some ⟨none, none, e⟩ := by
        rw [hh0, hGet_cons, if_pos rfl]
      have hg1a : hGet h1 s.nextA = some ⟨none, none, e⟩ := by
        rw [hh1, hGet_hWrite_ne _ _ _ _ (Ne.symm hbne), hg0a]
      rw [hh2, hGet_hWrite_self _ hg1a]
    have hg2other : ∀ x, x ≠ b → x ≠ s.nextA → hGet h2 x = hGet s.heap x := by
      intro x hxb hxa
      rw [hh2, hGet_hWrite_ne _ _ _ _ hxa, hh1, hGet_hWrite_ne _ _ _ _ hxb,
        hh0, hGet_cons, if_neg hxa]
    have hkeys2 : keys h2 = s.nextA :: keys s.heap := by
      rw [hh2, keys_hWrite, hh1, keys_hWrite, hh0]
      rfl
    have hagree : ∀ x ∈ rest, hGet h2 x = hGet s.heap x := fun x hx =>
      hg2other x (fun hh => hnotrest (hh ▸ hx)) (fun hh => hanotrest (hh ▸ hx))
    refine ⟨{ s with
        heap := h2, nextA := s.nextA + 1, head := some s.nextA,
        length := s.length + 1 },
      LIST_ADD_eval_prepend s e b bn htlne hhd1 hbne hbn, ?_,
      by simp, by simp, by simp, by rw [hhd1]; exact hg2a, ?_, ?_,
      by simp, by simp, by simp⟩
    · -- well-formedness of the result
      refine ⟨?_, by simp, ?_, by simpa using hlen, ?_,
        by rw [hkeys2]; exact hknd2, ?_⟩
      · exact List.nodup_cons.mpr ⟨hfreshA, hnd⟩
      · rw [htl]
        simp [List.getLast?_cons_cons]
      · -- the new chain
        have hseg2 : seg h2 (some b) rest none = true := by
          rw [seg_congr (h := s.heap) (some b) none hagree]
          exact hsegr
        have hsegb : seg h2 (some s.nextA) (b :: rest) none = true := by
          rw [seg_cons, hg2b]
          simp [headOr, hbnn, hseg2]
        rw [seg_cons, hg2a]
        simp [headOr, hsegb]
      · intro k hk
        rw [hkeys2] at hk
        exact hklt2 k hk
    · intro b2 bn2 hbs2 hbn2
      rw [hhd1] at hbs2
      injection hbs2 with hbs2
      rw [← hbs2] at hbn2 ⊢
      rw [hbn] at hbn2
      injection hbn2 with hbn2
      rw [← hbn2]
      exact hg2b
    · -- values: the new entry in front, old ones unchanged
      rw [valsOf_cons, hg2a, valsOf_cons, valsOf_cons, hg2b, hbn]
      have hv : valsOf h2 rest = valsOf s.heap rest := valsOf_congr fun x hx => by
        rw [hagree x hx]
      rw [hv]


/-! Evaluation lemmas for `LIST_REMOVE`, one per position of the removed
node (only node / head / tail / interior). -/

theorem LIST_REMOVE_eval_single (s : St α) (a : Nat) (n : Node α)
    (hga : hGet s.heap a = some n) (hnp : n.prev = none) (hnn : n.next = none)
    (hhd : s.head = some a) (htl : s.tail = some a) :
    LIST_REMOVE s (some a) = .ok (s.length,
      { s with head := none, tail := none, length := sizeDec s.length }) := by
  simp [LIST_REMOVE, removePatchPrev, removePatchNext, removeFixHead, removeFixTail, derefP, hga, hnp, hnn, hhd, htl]

theorem LIST_REMOVE_eval_head (s : St α) (a b : Nat) (n bn : Node α)
    (hga : hGet s.heap a = some n) (hnp : n.prev = none) (hnn : n.next = some b)
    (_hba : b ≠ a) (hgb : hGet s.heap b = some bn)
    (hhd : s.head = some a) (htl : some a ≠ s.tail) :
    LIST_REMOVE s (some a) = .ok (s.length,
      { s with
        heap := hWrite s.heap b (fun m => { m with prev := none }),
        head := some b, length := sizeDec s.length }) := by
  have hga2 : hGet (hWrite s.heap b fun m => { m with prev := none }) a =
      some n := by rw [hGet_hWrite_ne _ _ _ _ (Ne.symm _hba)]; exact hga
  simp [LIST_REMOVE, removePatchPrev, removePatchNext, removeFixHead, removeFixTail, derefP, hga, hnp, hnn, hgb, hga2, hhd, htl]

theorem LIST_REMOVE_eval_tail (s : St α) (a p : Nat) (n pn : Node α)
    (hga : hGet s.heap a = some n) (hnp : n.prev = some p) (hnn : n.next = none)
    (hpa : p ≠ a) (hgp : hGet s.heap p = some pn)
    (hhd : some a ≠ s.head) (htl : s.tail = some a) :
    LIST_REMOVE s (some a) = .ok (s.length,
      { s with
        heap := hWrite s.heap p (fun m => { m with next := none }),
        tail := some p, length := sizeDec s.length }) := by
  have hga2 : hGet (hWrite s.heap p fun m => { m with next := none }) a =
      some n := by rw [hGet_hWrite_ne _ _ _ _ (Ne.symm hpa)]; exact hga
  simp [LIST_REMOVE, removePatchPrev, removePatchNext, removeFixHead, removeFixTail, derefP, hga, hnp, hnn, hgp, hga2, hhd, htl]

theorem LIST_REMOVE_eval_mid (s : St α) (a p b : Nat) (n pn bn : Node α)
    (hga : hGet s.heap a = some n) (hnp : n.prev = some p) (hnn : n.next = some b)
    (hpa : p ≠ a) (_hba : b ≠ a) (hbp : b ≠ p)
    (hgp : hGet s.heap p = some pn) (hgb : hGet s.heap b = some bn)
    (hhd : some a ≠ s.head) (htl : some a ≠ s.tail) :
    LIST_REMOVE s (some a) = .ok (s.length,
      { s with
        heap := hWrite (hWrite s.heap p (fun m => { m with next := some b }))
          b (fun m => { m with prev := some p }),
        length := sizeDec s.length }) := by
  have hga2 : hGet (hWrite s.heap p fun m => { m with next := some b }) a =
      some n := by rw [hGet_hWrite_ne _ _ _ _ (Ne.symm hpa)]; exact hga
  have hgb2 : hGet (hWrite s.heap p fun m => { m with next := some b }) b =
      some bn := by rw [hGet_hWrite_ne _ _ _ _ hbp]; exact hgb
  simp [LIST_REMOVE, removePatchPrev, removePatchNext, removeFixHead, removeFixTail, derefP, hga, hnp, hnn, hgp, hgb2, hga2, hhd, htl]


/-! Small helpers about `head?`, `getLast?` and `lastOr`. -/

theorem mem_of_head? {l : List Nat} {x : Nat} (h : l.head? = some x) :
    x ∈ l := by
  cases l with
  | nil => exact Option.noConfusion h
  | cons y t =>
    injection h with h
    exact h ▸ List.mem_cons_self y t

theorem head?_append_left (l1 rest : List Nat) (hne : l1 ≠ []) :
    (l1 ++ rest).head? = l1.head? := by
  cases l1 with
  | nil => exact absurd rfl hne
  | cons y t => rfl

theorem lastOr_mem : ∀ (l : List Nat) (d : Option Nat) (x : Nat),
    lastOr l d = some x → some x = d ∨ x ∈ l := by
  intro l
  induction l with
  | nil => intro d x h; exact Or.inl h.symm
  | cons y t ih =>
    intro d x h
    rw [lastOr_cons] at h
    rcases ih (some y) x h with h2 | h2
    · injection h2 with h2
      exact Or.inr (h2 ▸ List.mem_cons_self y t)
    · exact Or.inr (List.mem_cons_of_mem y h2)

theorem mem_of_getLast? {l : List Nat} {x : Nat} (h : l.getLast? = some x) :
    x ∈ l := by
  rw [← lastOr_eq_getLast?] at h
  rcases lastOr_mem l none x h with h2 | h2
  · exact Option.noConfusion h2
  · exact h2

theorem lastOr_indep {l : List Nat} (hne : l ≠ []) (d d2 : Option Nat) :
    lastOr l d = lastOr l d2 := by
  cases l with
  | nil => exact absurd rfl hne
  | cons y t => rfl

theorem getLast?_append_right (l1 l2 : List Nat) (hne : l2 ≠ []) :
    (l1 ++ l2).getLast? = l2.getLast? := by
  rw [← lastOr_eq_getLast?, ← lastOr_eq_getLast?, lastOr_append]
  exact lastOr_indep hne _ _


/-! Preservation of `Wf` by `LIST_REMOVE` on a live member node.  The
returned value is the length BEFORE the call (`(list)->length--` is a
post-decrement, so the statement expression yields the old length, even
though the macro comment promises the new length). -/

theorem remove_ok (s : St α) (l1 l2 : List Nat) (a : Nat)
    (hwf : Wf s (l1 ++ a :: l2)) :
    ∃ s2, LIST_REMOVE s (some a) = .ok (s.length, s2) ∧
      Wf s2 (l1 ++ l2) ∧
      s2.length = s.length - 1 ∧
      (∃ n2, hGet s2.heap a = some n2 ∧
        (hGet s.heap a).map Node.entry = some n2.entry) ∧
      valsOf s2.heap (l1 ++ l2) = valsOf s.heap (l1 ++ l2) ∧
      keys s2.heap = keys s.heap ∧
      s2.nextA = s.nextA ∧ s2.hasD = s.hasD ∧ s2.dlog = s.dlog := by
  obtain ⟨hnd, hhd, htl, hlen, hseg, hknd, hklt⟩ := hwf
  obtain ⟨n, hga, hnp, hnn, hseg1, hseg2⟩ := seg_at l1 l2 hseg
  obtain ⟨hnd1, hndc, hdisj⟩ := List.nodup_append.mp hnd
  obtain ⟨hal2, hnd2⟩ := List.nodup_cons.mp hndc
  have hal1 : a ∉ l1 := fun hh => hdisj hh (List.mem_cons_self a l2)
  have hlenpos : s.length ≠ 0 := by
    rw [hlen]
    simp
  have hsd : sizeDec s.length = s.length - 1 := by
    unfold sizeDec
    rw [if_neg hlenpos]
  have hlen2 : s.length - 1 = (l1 ++ l2).length := by
    rw [hlen]
    simp only [List.length_append, List.length_cons]
    omega
  rcases List.eq_nil_or_concat l1 with rfl | ⟨l1p, p, hl1⟩
  · cases l2 with
    | nil =>
      -- only node of the list
      have hnp0 : n.prev = none := by simpa [lastOr] using hnp
      have hnn0 : n.next = none := by simpa [headOr] using hnn
      have hhd0 : s.head = some a := by simpa using hhd
      have htl0 : s.tail = some a := by simpa using htl
      refine ⟨_, LIST_REMOVE_eval_single s a n hga hnp0 hnn0 hhd0 htl0,
        ⟨by simp, by simp, by simp, by simp [hsd, hlen2], by simp, hknd, hklt⟩,
        by simp [hsd], ⟨n, hga, by rw [hga]; rfl⟩, by simp, by simp, by simp,
        by simp, by simp⟩
    | cons b l2p =>
      -- head of a longer list
      have hnp0 : n.prev = none := by simpa [lastOr] using hnp
      have hnn0 : n.next = some b := by simpa [headOr] using hnn
      rw [seg_cons] at hseg2
      cases hgb : hGet s.heap b with
      | none => rw [hgb] at hseg2; exact Bool.noConfusion hseg2
      | some bn =>
      rw [hgb] at hseg2
      simp only [Bool.and_eq_true, decide_eq_true_eq] at hseg2
      obtain ⟨⟨hbnp, hbnn⟩, hseg2p⟩ := hseg2
      have hba : b ≠ a := fun hh => hal2 (hh ▸ List.mem_cons_self b l2p)
      have hbl2p : b ∉ l2p := (List.nodup_cons.mp hnd2).1
      have hhd0 : s.head = some a := by simpa using hhd
      have htl0 : some a ≠ s.tail := by
        intro hh
        rw [htl] at hh
        have : a ∈ b :: l2p := by
          have h3 : (a :: b :: l2p).getLast? = some a := hh.symm
          rw [List.getLast?_cons_cons] at h3
          exact mem_of_getLast? h3
        exact hal2 this
      have hg2b : hGet (hWrite s.heap b fun m => { m with prev := none }) b =
          some { bn with prev := none } := hGet_hWrite_self _ hgb
      have hg2other : ∀ x, x ≠ b →
          hGet (hWrite s.heap b fun m => { m with prev := none }) x =
            hGet s.heap x := fun x hx => hGet_hWrite_ne _ _ _ _ hx
      refine ⟨_, LIST_REMOVE_eval_head s a b n bn hga hnp0 hnn0 hba hgb hhd0 htl0,
        ⟨by simpa using hnd2, by simp, ?_, by simp [hsd, hlen2], ?_,
          by simpa using hknd, by simpa using hklt⟩,
        by simp [hsd], ⟨n, ?_, by rw [hga]; rfl⟩,
        ?_, by simp [keys_hWrite], by simp, by simp, by simp⟩
      · rw [htl]
        simp [List.getLast?_cons_cons]
      · -- the chain after unlinking the head
        have inner : seg (hWrite s.heap b fun m => { m with prev := none })
            (some b) l2p none = true := by
          rw [seg_congr (h := s.heap) (some b) none
            (fun x hx => hg2other x (fun hh => hbl2p (hh ▸ hx)))]
          exact hseg2p
        rw [show ([] ++ b :: l2p : List Nat) = b :: l2p from rfl, seg_cons, hg2b]
        simp [headOr, hbnn, inner]
      · show hGet (hWrite s.heap b fun m => { m with prev := none }) a = some n
        rw [hg2other a (Ne.symm hba)]
        exact hga
      · rw [show ([] ++ b :: l2p : List Nat) = b :: l2p from rfl]
        apply valsOf_congr
        intro x hx
        rcases List.mem_cons.mp hx with rfl | hx
        · rw [hg2b, hgb]
          rfl
        · rw [hg2other x fun hh => hbl2p (hh ▸ hx)]
  · rw [List.concat_eq_append] at hl1
    subst hl1
    have hpa : p ≠ a := fun hh => hal1 (hh ▸ List.mem_append.mpr (Or.inr (List.mem_singleton_self p)))
    have hnp0 : n.prev = some p := by
      rw [hnp, lastOr_append]
      rfl
    obtain ⟨pn, hgp, hpnp, hpnn, hseg1p, -⟩ :=
      seg_at l1p [] (by simpa using hseg1)
    have hpl1p : p ∉ l1p := by
      have := List.nodup_append.mp hnd1
      exact fun hh => this.2.2 hh (List.mem_singleton_self p)
    have hpnn0 : pn.next = some a := by simpa [headOr] using hpnn
    cases l2 with
    | nil =>
      -- tail of a longer list
      have hnn0 : n.next = none := by simpa [headOr] using hnn
      have htl0 : s.tail = some a := by
        rw [htl, show (l1p ++ [p] ++ a :: [] : List Nat) = (l1p ++ [p]) ++ [a] from rfl,
          List.getLast?_concat]
      have hhd0 : some a ≠ s.head := by
        intro hh
        rw [hhd, head?_append_left _ _ (by simp)] at hh
        exact hal1 (mem_of_head? hh.symm)
      have hg2p : hGet (hWrite s.heap p fun m => { m with next := none }) p =
          some { pn with next := none } := hGet_hWrite_self _ hgp
      have hg2other : ∀ x, x ≠ p →
          hGet (hWrite s.heap p fun m => { m with next := none }) x =
            hGet s.heap x := fun x hx => hGet_hWrite_ne _ _ _ _ hx
      refine ⟨_, LIST_REMOVE_eval_tail s a p n pn hga hnp0 hnn0 hpa hgp hhd0 htl0,
        ⟨by simpa using hnd1, ?_, ?_, by simp [hsd, hlen2], ?_,
          by simpa using hknd, by simpa using hklt⟩,
        by simp [hsd], ⟨n, ?_, by rw [hga]; rfl⟩,
        ?_, by simp [keys_hWrite], by simp, by simp, by simp⟩
      · rw [hhd, head?_append_left (l1p ++ [p]) _ (by simp)]
        simp
      · rw [show (l1p ++ [p] ++ [] : List Nat) = l1p ++ [p] from by simp,
          List.getLast?_concat]
      · -- the chain after unlinking the tail
        rw [show (l1p ++ [p] ++ [] : List Nat) = l1p ++ [p] from by simp,
          seg_append, Bool.and_eq_true]
        constructor
        · rw [seg_congr (h := s.heap) none (headOr [p] none)
            (fun x hx => hg2other x (fun hh => hpl1p (hh ▸ hx)))]
          simpa [headOr] using hseg1p
        · rw [seg_cons, hg2p]
          simp [headOr, hpnp]
      · show hGet (hWrite s.heap p fun m => { m with next := none }) a = some n
        rw [hg2other a (Ne.symm hpa)]
        exact hga
      · rw [show (l1p ++ [p] ++ [] : List Nat) = l1p ++ [p] from by simp]
        apply valsOf_congr
        intro x hx
        rcases List.mem_append.mp hx with hx | hx
        · rw [hg2other x fun hh => hpl1p (hh ▸ hx)]
        · rw [List.mem_singleton.mp hx, hg2p, hgp]
          rfl
    | cons b l2p =>
      -- interior node
      have hnn0 : n.next = some b := by simpa [headOr] using hnn
      rw [seg_cons] at hseg2
      cases hgb : hGet s.heap b with
      | none => rw [hgb] at hseg2; exact Bool.noConfusion hseg2
      | some bn =>
      rw [hgb] at hseg2
      simp only [Bool.and_eq_true, decide_eq_true_eq] at hseg2
      obtain ⟨⟨hbnp, hbnn⟩, hseg2p⟩ := hseg2
      have hba : b ≠ a := fun hh => hal2 (hh ▸ List.mem_cons_self b l2p)
      have hbl2p : b ∉ l2p := (List.nodup_cons.mp hnd2).1
      have hpnotc : p ∉ a :: b :: l2p :=
        hdisj (List.mem_append.mpr (Or.inr (List.mem_singleton_self p)))
      have hbp : b ≠ p := by
        intro hh
        apply hpnotc
        rw [← hh]
        exact List.mem_cons_of_mem a (List.mem_cons_self b l2p)
      have hhd0 : some a ≠ s.head := by
        intro hh
        rw [hhd, head?_append_left _ _ (by simp)] at hh
        exact hal1 (mem_of_head? hh.symm)
      have htl0 : some a ≠ s.tail := by
        intro hh
        rw [htl, getLast?_append_right _ _ (by simp),
          List.getLast?_cons_cons] at hh
        exact hal2 (mem_of_getLast? hh.symm)
      set hp1 := hWrite s.heap p (fun m => { m with next := some b }) with hhp1
      set hp2 := hWrite hp1 b (fun m => { m with prev := some p }) with hhp2
      have hg2p : hGet hp2 p = some { pn with next := some b } := by
        rw [hhp2, hGet_hWrite_ne _ _ _ _ (Ne.symm hbp), hhp1, hGet_hWrite_self _ hgp]
      have hg2b : hGet hp2 b = some { bn with prev := some p } := by
        rw [hhp2]
        have : hGet hp1 b = some bn := by
          rw [hhp1, hGet_hWrite_ne _ _ _ _ hbp, hgb]
        rw [hGet_hWrite_self _ this]
      have hg2other : ∀ x, x ≠ p → x ≠ b → hGet hp2 x = hGet s.heap x := by
        intro x hxp hxb
        rw [hhp2, hGet_hWrite_ne _ _ _ _ hxb, hhp1, hGet_hWrite_ne _ _ _ _ hxp]
      have hbl1 : b ∉ l1p ++ [p] := fun hmem =>
        hdisj hmem (List.mem_cons_of_mem a (List.mem_cons_self b l2p))
      have hagree1 : ∀ x ∈ l1p, hGet hp2 x = hGet s.heap x := fun x hx =>
        hg2other x (fun hh => hpl1p (hh ▸ hx))
          (fun hh => hbl1 (List.mem_append.mpr (Or.inl (hh ▸ hx))))
      have hagree2 : ∀ x ∈ l2p, hGet hp2 x = hGet s.heap x := fun x hx =>
        hg2other x
          (fun hh => hpnotc
            (hh ▸ (List.mem_cons_of_mem a (List.mem_cons_of_mem b hx))))
          (fun hh => hbl2p (hh ▸ hx))
      refine ⟨_, LIST_REMOVE_eval_mid s a p b n pn bn hga hnp0 hnn0 hpa hba hbp
          hgp hgb hhd0 htl0,
        ⟨?_, ?_, ?_, by simp [hsd, hlen2], ?_, ?_, ?_⟩,
        by simp [hsd], ⟨n, ?_, by rw [hga]; rfl⟩, ?_, ?_,
        by simp, by simp, by simp⟩
      · exact List.nodup_append.mpr ⟨hnd1, hnd2,
          fun x hx hx2 => hdisj hx (List.mem_cons_of_mem a hx2)⟩
      · rw [hhd, head?_append_left (l1p ++ [p]) _ (by simp),
          head?_append_left (l1p ++ [p]) _ (by simp)]
      · rw [htl, getLast?_append_right _ _ (by simp),
          getLast?_append_right _ _ (by simp), List.getLast?_cons_cons]
      · -- the chain after unlinking an interior node
        show seg hp2 none ((l1p ++ [p]) ++ b :: l2p) none = true
        have innerP : seg hp2 (lastOr l1p none) [p] (some b) = true := by
          rw [seg_cons, hg2p]
          simp [headOr, hpnp]
        have inner2 : seg hp2 (some b) l2p none = true := by
          rw [seg_congr (h := s.heap) (some b) none hagree2]
          exact hseg2p
        have innerB : seg hp2 (some p) (b :: l2p) none = true := by
          rw [seg_cons, hg2b]
          simp [headOr, hbnn, inner2]
        rw [seg_append, Bool.and_eq_true,
          show headOr (b :: l2p) none = some b from rfl]
        constructor
        · rw [seg_append, Bool.and_eq_true,
            show headOr [p] (some b) = some p from rfl]
          constructor
          · rw [seg_congr (h := s.heap) none (some p) hagree1]
            exact hseg1p
          · exact innerP
        · rw [show lastOr (l1p ++ [p]) none = some p from by
            rw [lastOr_append]; rfl]
          exact innerB
      · show (keys hp2).Nodup
        rw [hhp2, keys_hWrite, hhp1, keys_hWrite]
        exact hknd
      · show ∀ k ∈ keys hp2, k < s.nextA
        rw [hhp2, keys_hWrite, hhp1, keys_hWrite]
        exact hklt
      · show hGet hp2 a = some n
        rw [hg2other a (Ne.symm hpa) (Ne.symm hba)]
        exact hga
      · show valsOf hp2 ((l1p ++ [p]) ++ b :: l2p) =
          valsOf s.heap ((l1p ++ [p]) ++ b :: l2p)
        apply valsOf_congr
        intro x hx
        by_cases hxp : x = p
        · rw [hxp, hg2p, hgp]
          rfl
        · by_cases hxb : x = b
          · rw [hxb, hg2b, hgb]
            rfl
          · rw [hg2other x hxp hxb]
      · show keys hp2 = keys s.heap
        rw [hhp2, keys_hWrite, hhp1, keys_hWrite]


/-! `Wf` is insensitive to the destructor bookkeeping and survives
freeing a non-member node. -/

theorem Wf_congr {s s2 : St α} {addrs : List Nat} (hwf : Wf s addrs)
    (hp : s2.heap = s.heap) (hn : s2.nextA = s.nextA) (hh : s2.head = s.head)
    (ht : s2.tail = s.tail) (hl : s2.length = s.length) : Wf s2 addrs := by
  obtain ⟨h1, h2, h3, h4, h5, h6, h7⟩ := hwf
  refine ⟨h1, hh.trans h2, ht.trans h3, hl.trans h4, ?_, ?_, ?_⟩
  · rw [hp]
    exact h5
  · rw [hp]
    exact h6
  · rw [hp, hn]
    exact h7

theorem Wf_hDel {s : St α} {addrs : List Nat} (hwf : Wf s addrs) (b : Nat)
    (hb : b ∉ addrs) : Wf { s with heap := hDel s.heap b } addrs := by
  obtain ⟨h1, h2, h3, h4, h5, h6, h7⟩ := hwf
  refine ⟨h1, h2, h3, h4, ?_, keys_hDel_nodup b h6,
    fun k hk => h7 k (keys_hDel_subset _ b k hk)⟩
  rw [seg_congr (h := s.heap) none none
    (fun x hx => hGet_hDel_ne _ _ _ (fun hh => hb (by rw [← hh]; exact hx)))]
  exact h5

/-- A member address of a `Wf` state is not in the remaining addresses. -/
theorem Wf_not_mem_rest (l1 l2 : List Nat) {s : St α} {a : Nat}
    (hwf : Wf s (l1 ++ a :: l2)) : a ∉ l1 ++ l2 := by
  obtain ⟨hnd1, hndc, hdisj⟩ := List.nodup_append.mp hwf.1
  intro hmem
  rcases List.mem_append.mp hmem with hx | hx
  · exact hdisj hx (List.mem_cons_self a l2)
  · exact (List.nodup_cons.mp hndc).1 hx

/-! Preservation of `Wf` by `LIST_DEL`: remove, then invoke the
destructor (when configured) on the element, then free the node. -/

theorem del_ok (s : St α) (l1 l2 : List Nat) (a : Nat)
    (hwf : Wf s (l1 ++ a :: l2)) :
    ∃ s2 v, LIST_DEL s (some a) = .ok s2 ∧
      (hGet s.heap a).map Node.entry = some v ∧
      Wf s2 (l1 ++ l2) ∧
      s2.length = s.length - 1 ∧
      hGet s2.heap a = none ∧
      valsOf s2.heap (l1 ++ l2) = valsOf s.heap (l1 ++ l2) ∧
      s2.dlog = s.dlog ++ (if s.hasD then [v] else []) ∧
      s2.hasD = s.hasD ∧ s2.nextA = s.nextA := by
  obtain ⟨s1, hrem, hwf1, hlen1, ⟨n2, hga1, hent⟩, hvals1, hkeys1, hna1, hD1,
    hdlog1⟩ := remove_ok s l1 l2 a hwf
  have hnotmem : a ∉ l1 ++ l2 := Wf_not_mem_rest l1 l2 hwf
  have hgone : hGet (hDel s1.heap a) a = none :=
    hGet_hDel_self hwf1.2.2.2.2.2.1
  have hvd : valsOf (hDel s1.heap a) (l1 ++ l2) = valsOf s1.heap (l1 ++ l2) :=
    valsOf_congr fun x hx => by
      rw [hGet_hDel_ne _ _ _ (fun hh => hnotmem (by rw [← hh]; exact hx))]
  cases hD : s.hasD with
  | false =>
    refine ⟨{ s1 with heap := hDel s1.heap a }, n2.entry, ?_, hent, ?_,
      by simpa using hlen1, hgone, by rw [hvd]; exact hvals1,
      by simp [hdlog1, hD], by simp [hD1, hD], by simpa using hna1⟩
    · rw [LIST_DEL, hrem]
      simp only [exceptOkBind]
      simp [hD1, hD]
    · exact Wf_hDel hwf1 a hnotmem
  | true =>
    refine ⟨{ s1 with heap := hDel s1.heap a, dlog := s1.dlog ++ [n2.entry] },
      n2.entry, ?_, hent, ?_,
      by simpa using hlen1, hgone, by rw [hvd]; exact hvals1,
      by simp [hdlog1, hD], by simp [hD1, hD], by simpa using hna1⟩
    · rw [LIST_DEL, hrem]
      simp only [exceptOkBind]
      simp [hD1, hD, derefP_some hga1]
    · exact Wf_congr (Wf_hDel hwf1 a hnotmem) rfl rfl rfl rfl rfl

/-! Preservation of `Wf` by the pops (`_LIST_POP`): capture the boundary
pointer, remove it, read its entry, free it, return the entry. -/

theorem popF_ok (s : St α) (a : Nat) (rest : List Nat)
    (hwf : Wf s (a :: rest)) :
    ∃ v s2, LIST_POPF s = .ok (v, s2) ∧
      (hGet s.heap a).map Node.entry = some v ∧
      Wf s2 rest ∧
      s2.length = s.length - 1 ∧
      hGet s2.heap a = none ∧
      valsOf s2.heap rest = valsOf s.heap rest ∧
      s2.dlog = s.dlog ∧ s2.hasD = s.hasD ∧ s2.nextA = s.nextA := by
  have hhd : s.head = some a := by
    have := hwf.2.1
    simpa using this
  obtain ⟨s1, hrem, hwf1, hlen1, ⟨n2, hga1, hent⟩, hvals1, hkeys1, hna1, hD1,
    hdlog1⟩ := remove_ok s [] rest a (by simpa using hwf)
  have hnotmem : a ∉ rest := by
    have := Wf_not_mem_rest [] rest (by simpa using hwf)
    simpa using this
  have hgone : hGet (hDel s1.heap a) a = none :=
    hGet_hDel_self hwf1.2.2.2.2.2.1
  have hvd : valsOf (hDel s1.heap a) rest = valsOf s1.heap rest := by
    exact valsOf_congr fun x hx => by
      rw [hGet_hDel_ne _ _ _ (fun hh => hnotmem (by rw [← hh]; exact hx))]
  refine ⟨n2.entry, { s1 with heap := hDel s1.heap a }, ?_, hent, ?_,
    by simpa using hlen1, hgone, by rw [hvd]; simpa using hvals1,
    by simp [hdlog1], by simp [hD1], by simpa using hna1⟩
  · simp [LIST_POPF, LIST_POP, hhd, hrem, derefP_some hga1]
  · exact Wf_congr (Wf_hDel (by simpa using hwf1) a hnotmem) rfl rfl rfl rfl rfl

theorem popB_ok (s : St α) (a : Nat) (front : List Nat)
    (hwf : Wf s (front ++ [a])) :
    ∃ v s2, LIST_POPB s = .ok (v, s2) ∧
      (hGet s.heap a).map Node.entry = some v ∧
      Wf s2 front ∧
      s2.length = s.length - 1 ∧
      hGet s2.heap a = none ∧
      valsOf s2.heap front = valsOf s.heap front ∧
      s2.dlog = s.dlog ∧ s2.hasD = s.hasD ∧ s2.nextA = s.nextA := by
  have htl : s.tail = some a := by
    have := hwf.2.2.1
    rw [this, List.getLast?_concat]
  obtain ⟨s1, hrem, hwf1, hlen1, ⟨n2, hga1, hent⟩, hvals1, hkeys1, hna1, hD1,
    hdlog1⟩ := remove_ok s front [] a (by simpa using hwf)
  have hnotmem : a ∉ front := by
    have := Wf_not_mem_rest front [] (by simpa using hwf)
    simpa using this
  have hwf1f : Wf s1 front := by simpa using hwf1
  have hgone : hGet (hDel s1.heap a) a = none :=
    hGet_hDel_self hwf1f.2.2.2.2.2.1
  have hvd : valsOf (hDel s1.heap a) front = valsOf s1.heap front :=
    valsOf_congr fun x hx => by
      rw [hGet_hDel_ne _ _ _ (fun hh => hnotmem (by rw [← hh]; exact hx))]
  refine ⟨n2.entry, { s1 with heap := hDel s1.heap a }, ?_, hent, ?_,
    by simpa using hlen1, hgone, by rw [hvd]; simpa using hvals1,
    by simp [hdlog1], by simp [hD1], by simpa using hna1⟩
  · simp [LIST_POPB, LIST_POP, htl, hrem, derefP_some hga1]
  · exact Wf_congr (Wf_hDel hwf1f a hnotmem) rfl rfl rfl rfl rfl


/-! The head node of a well-formed non-empty list. -/

theorem Wf_head_node {s : St α} {b : Nat} {rest : List Nat}
    (hwf : Wf s (b :: rest)) :
    ∃ bn, hGet s.heap b = some bn ∧ bn.prev = none ∧ bn.next = rest.head? := by
  have hseg := hwf.2.2.2.2.1
  rw [seg_cons] at hseg
  cases hgb : hGet s.heap b with
  | none =>
    rw [hgb] at hseg
    exact Bool.noConfusion hseg
  | some bn =>
    rw [hgb] at hseg
    simp only [Bool.and_eq_true, decide_eq_true_eq] at hseg
    refine ⟨bn, rfl, hseg.1.1, ?_⟩
    rw [hseg.1.2]
    cases rest <;> rfl

/-! The `LIST_DESTROY` loop (`_LIST_FOR_EACH_SAFE` with a `LIST_DEL`
callback) deletes every member node, front to back. -/

theorem destroyLoop_ok : ∀ (addrs : List Nat) (s : St α) (fuel : Nat),
    Wf s addrs → addrs.length < fuel →
    ∃ s2, destroyLoop fuel s addrs.head? addrs.tail.head? = .ok s2 ∧
      Wf s2 [] ∧ s2.head = none ∧ s2.tail = none ∧ s2.length = 0 ∧
      s2.dlog = s.dlog ++ (if s.hasD then valsOf s.heap addrs else []) ∧
      s2.hasD = s.hasD ∧ s2.nextA = s.nextA := by
  intro addrs
  induction addrs with
  | nil =>
    intro s fuel hwf hfuel
    cases fuel with
    | zero => omega
    | succ f =>
      refine ⟨s, rfl, hwf, by simpa using hwf.2.1, by simpa using hwf.2.2.1,
        by simpa using hwf.2.2.2.1, ?_, rfl, rfl⟩
      cases s.hasD <;> simp [valsOf_nil]
  | cons a rest ih =>
    intro s fuel hwf hfuel
    cases fuel with
    | zero => omega
    | succ f =>
      obtain ⟨s1, v, hdel, hent, hwf1, hlen1, hgone1, hvals1, hdlog1, hD1,
        hna1⟩ := del_ok s [] rest a (by simpa using hwf)
      have hwf1r : Wf s1 rest := by simpa using hwf1
      have hvala : valsOf s.heap (a :: rest) = v :: valsOf s.heap rest := by
        rw [valsOf_cons]
        cases hga : hGet s.heap a with
        | none => rw [hga] at hent; exact Option.noConfusion hent
        | some n =>
          rw [hga] at hent
          injection hent with hent
          simp [hent]
      cases rest with
      | nil =>
        obtain ⟨s2, hloop, hwf2, hh2, ht2, hl2, hdlog2, hD2, hna2⟩ :=
          ih s1 f hwf1r (by simpa using hfuel)
        refine ⟨s2, ?_, hwf2, hh2, ht2, hl2, ?_, hD2.trans hD1, hna2.trans hna1⟩
        · show destroyLoop (f + 1) s (some a) none = .ok s2
          rw [destroyLoop, hdel]
          simpa using hloop
        · rw [hdlog2, hdlog1, hD1, hvala]
          cases s.hasD <;> simp
      | cons b rest2 =>
        obtain ⟨bn, hgb, hbnp, hbnn⟩ := Wf_head_node hwf1r
        obtain ⟨s2, hloop, hwf2, hh2, ht2, hl2, hdlog2, hD2, hna2⟩ :=
          ih s1 f hwf1r (by simpa using hfuel)
        refine ⟨s2, ?_, hwf2, hh2, ht2, hl2, ?_, hD2.trans hD1, hna2.trans hna1⟩
        · show destroyLoop (f + 1) s (some a) (some b) = .ok s2
          rw [destroyLoop, hdel]
          simpa [derefP_some hgb, hbnn] using hloop
        · have hvals1n : valsOf s1.heap (b :: rest2) =
              valsOf s.heap (b :: rest2) := by
            simpa using hvals1
          rw [hdlog2, hdlog1, hD1, hvala, hvals1n]
          cases s.hasD <;> simp

theorem destroy_ok (s : St α) (addrs : List Nat) (hwf : Wf s addrs) :
    ∃ s2, LIST_DESTROY s = .ok s2 ∧ Wf s2 [] ∧ s2.head = none ∧
      s2.tail = none ∧ s2.length = 0 ∧
      s2.dlog = s.dlog ++ (if s.hasD then valsOf s.heap addrs else []) ∧
      s2.hasD = s.hasD ∧ s2.nextA = s.nextA := by
  cases addrs with
  | nil =>
    have hhd : s.head = none := by simpa using hwf.2.1
    obtain ⟨s2, hloop, rest⟩ := destroyLoop_ok [] s (s.length + 1) hwf (by simp)
    exact ⟨s2, by rw [LIST_DESTROY, hhd]; exact hloop, rest⟩
  | cons a rest =>
    have hhd : s.head = some a := by simpa using hwf.2.1
    obtain ⟨n, hga, hnp, hnn⟩ := Wf_head_node hwf
    have hflen : (a :: rest).length < s.length + 1 := by
      rw [hwf.2.2.2.1]
      omega
    obtain ⟨s2, hloop, rest2⟩ := destroyLoop_ok (a :: rest) s (s.length + 1)
      hwf hflen
    refine ⟨s2, ?_, rest2⟩
    rw [LIST_DESTROY, hhd]
    simp only [derefP_some hga, exceptOkBind]
    rw [hnn]
    exact hloop

/-- `LIST_DESTROY` on a list whose head pointer is NULL is a no-op: the
deletion-safe loop exits immediately and the state is unchanged. -/
theorem destroy_empty_noop (s : St α) (hhd : s.head = none) :
    LIST_DESTROY s = .ok s := by
  rw [LIST_DESTROY, hhd]
  rfl


/-! The constructor: the append loop of `new_list` builds a well-formed
list holding the first `len` initializer elements in order; the freshly
malloc-ed addresses are consecutive. -/

theorem initLoop_ok (arr : List α) : ∀ (rem i : Nat) (s : St α)
    (addrs : List Nat), Wf s addrs → i + rem ≤ arr.length →
    ∃ s2, initLoop arr i rem s = .ok s2 ∧
      Wf s2 (addrs ++ List.range' s.nextA rem) ∧
      valsOf s2.heap (addrs ++ List.range' s.nextA rem) =
        valsOf s.heap addrs ++ (arr.drop i).take rem ∧
      s2.hasD = s.hasD ∧ s2.dlog = s.dlog := by
  intro rem
  induction rem with
  | zero =>
    intro i s addrs hwf hle
    exact ⟨s, rfl, by simpa using hwf, by simp, rfl, rfl⟩
  | succ rem ih =>
    intro i s addrs hwf hle
    have hi : i < arr.length := by omega
    obtain ⟨s1, happ, hwf1, hlen1, htl1, hhd1, hnew1, hpatch1, hvals1, hna1,
      hD1, hdlog1⟩ := append_ok s addrs arr[i] hwf
    obtain ⟨s2, hloop, hwf2, hvals2, hD2, hdlog2⟩ :=
      ih (i + 1) s1 (addrs ++ [s.nextA]) hwf1 (by omega)
    have hrange : addrs ++ List.range' s.nextA (rem + 1) =
        (addrs ++ [s.nextA]) ++ List.range' (s.nextA + 1) rem := by
      rw [List.range'_succ, List.append_assoc]
      rfl
    refine ⟨s2, ?_, ?_, ?_, hD2.trans hD1, hdlog2.trans hdlog1⟩
    · rw [initLoop]
      simp only [List.getElem?_eq_getElem hi, happ]
      exact hloop
    · rw [hrange]
      rw [hna1] at hwf2
      exact hwf2
    · rw [hrange, hna1] at *
      rw [hvals2, hvals1]
      rw [List.drop_eq_getElem_cons hi, List.take_succ_cons, List.append_assoc]
      rfl

/-- The freshly constructed empty sentinel of `new_list`. -/
def emptySt (d : Bool) : St α :=
  { heap := [], nextA := 0, head := none, tail := none, length := 0,
    hasD := d, dlog := [] }

theorem Wf_emptySt (d : Bool) : Wf (emptySt (α := α) d) [] := by
  refine ⟨by simp, rfl, rfl, rfl, rfl, by simp [keys, emptySt], ?_⟩
  intro k hk
  simp [keys, emptySt] at hk

theorem new_list_none (len : Nat) (d : Bool) :
    new_list (α := α) none len d = .ok (emptySt d) := rfl

theorem new_list_some_ok (arr : List α) (len : Nat) (d : Bool)
    (hlen : len ≤ arr.length) :
    ∃ s2, new_list (some arr) len d = .ok s2 ∧
      Wf s2 (List.range' 0 len) ∧
      valsOf s2.heap (List.range' 0 len) = arr.take len ∧
      s2.hasD = d ∧ s2.dlog = [] ∧ s2.length = len := by
  obtain ⟨s2, hloop, hwf2, hvals2, hD2, hdlog2⟩ :=
    initLoop_ok arr len 0 (emptySt d) [] (Wf_emptySt d) (by simpa using hlen)
  refine ⟨s2, hloop, by simpa using hwf2, by simpa using hvals2,
    hD2, hdlog2, ?_⟩
  rw [hwf2.2.2.2.1]
  simp

/-! The traversal of `_LIST_FOR_EACH`: following `next` from the head
visits the member addresses in order; following `prev` from the tail
visits them in reverse order. -/

theorem walkF_of_seg : ∀ (addrs : List Nat) (h : List (Nat × Node α))
    (pr : Option Nat) (fuel : Nat), seg h pr addrs none = true →
    addrs.length ≤ fuel →
    walkDir h true (headOr addrs none) fuel = addrs := by
  intro addrs
  induction addrs with
  | nil =>
    intro h pr fuel hseg hfuel
    exact walkDir_none h true fuel
  | cons a rest ih =>
    intro h pr fuel hseg hfuel
    cases fuel with
    | zero => simp at hfuel
    | succ f =>
      rw [seg_cons] at hseg
      cases hga : hGet h a with
      | none => rw [hga] at hseg; exact Bool.noConfusion hseg
      | some n =>
        rw [hga] at hseg
        simp only [Bool.and_eq_true, decide_eq_true_eq] at hseg
        show walkDir h true (some a) (f + 1) = a :: rest
        simp only [walkDir_some, hga]
        show a :: walkDir h true n.next f = a :: rest
        rw [hseg.1.2, ih h (some a) f hseg.2 (by simpa using hfuel)]

theorem walkB_of_seg (addrs : List Nat) (h : List (Nat × Node α)) :
    ∀ (nx : Option Nat) (fuel : Nat), seg h none addrs nx = true →
    addrs.length ≤ fuel →
    walkDir h false (lastOr addrs none) fuel = addrs.reverse := by
  induction addrs using List.reverseRecOn with
  | nil =>
    intro nx fuel hseg hfuel
    exact walkDir_none h false fuel
  | append_singleton l a ih =>
    intro nx fuel hseg hfuel
    cases fuel with
    | zero => simp at hfuel
    | succ f =>
      rw [seg_append, Bool.and_eq_true] at hseg
      obtain ⟨hsegl, hsega⟩ := hseg
      rw [seg_cons] at hsega
      cases hga : hGet h a with
      | none => rw [hga] at hsega; exact Bool.noConfusion hsega
      | some n =>
        rw [hga] at hsega
        simp only [Bool.and_eq_true, decide_eq_true_eq] at hsega
        rw [show lastOr (l ++ [a]) none = some a from by
          rw [lastOr_append]; rfl]
        show walkDir h false (some a) (f + 1) = (l ++ [a]).reverse
        simp only [walkDir_some, hga]
        show a :: walkDir h false n.prev f = (l ++ [a]).reverse
        rw [hsega.1.1, ih (some a) f (by simpa [headOr] using hsegl) (by
          simp only [List.length_append, List.length_cons] at hfuel
          omega)]
        simp

theorem walk_of_Wf {s : St α} {addrs : List Nat} (hwf : Wf s addrs)
    (fuel : Nat) (hf : s.length ≤ fuel) :
    walkDir s.heap true s.head fuel = addrs ∧
    walkDir s.heap false s.tail fuel = addrs.reverse := by
  have hlen : addrs.length ≤ fuel := by
    rw [← hwf.2.2.2.1]
    exact hf
  constructor
  · rw [hwf.2.1, show addrs.head? = headOr addrs none from by cases addrs <;> rfl]
    exact walkF_of_seg addrs s.heap none fuel hwf.2.2.2.2.1 hlen
  · rw [hwf.2.2.1, ← lastOr_eq_getLast?]
    exact walkB_of_seg addrs s.heap none fuel hwf.2.2.2.2.1 hlen


/-! Shape lemmas over ALL machine states (no well-formedness needed):
which errors the removal family can produce, and which sentinel fields
it can touch.  These decide the spec-level error claims: the code has no
EmptyListError or ForeignNodeError path at all. -/

theorem derefP_err {s : St α} {p : Option Nat} {r : MErr}
    (h : derefP s p = .error r) :
    r = MErr.nullDeref ∨ r = MErr.useAfterFree := by
  cases p with
  | none =>
    rw [derefP_none] at h
    injection h with h
    exact Or.inl h.symm
  | some a =>
    cases hg : hGet s.heap a with
    | none =>
      rw [show derefP s (some a) = .error MErr.useAfterFree from by
        simp [derefP, hg]] at h
      injection h with h
      exact Or.inr h.symm
    | some n =>
      rw [derefP_some hg] at h
      exact Except.noConfusion h

/-- Characterization of `removePatchPrev`: no-op, dangling-prev fault,
or a single heap store. -/
theorem removePatchPrev_cases (s : St α) (en : Node α) :
    removePatchPrev s en = .ok s ∨
    removePatchPrev s en = .error MErr.useAfterFree ∨
    ∃ pa, removePatchPrev s en =
      .ok { s with heap := hWrite s.heap pa (fun n => { n with next := en.next }) } := by
  cases hp : en.prev with
  | none =>
    left
    simp [removePatchPrev, hp]
  | some pa =>
    cases hg : hGet s.heap pa with
    | none =>
      right; left
      simp [removePatchPrev, hp, hg]
    | some m =>
      right; right
      exact ⟨pa, by simp [removePatchPrev, hp, hg]⟩

/-- Characterization of `removePatchNext`. -/
theorem removePatchNext_cases (s : St α) (en2 : Node α) :
    removePatchNext s en2 = .ok s ∨
    removePatchNext s en2 = .error MErr.useAfterFree ∨
    ∃ na, removePatchNext s en2 =
      .ok { s with heap := hWrite s.heap na (fun n => { n with prev := en2.prev }) } := by
  cases hp : en2.next with
  | none =>
    left
    simp [removePatchNext, hp]
  | some na =>
    cases hg : hGet s.heap na with
    | none =>
      right; left
      simp [removePatchNext, hp, hg]
    | some m =>
      right; right
      exact ⟨na, by simp [removePatchNext, hp, hg]⟩

/-- The sentinel fields the two patch steps can and cannot touch, and
the errors they can raise. -/
theorem removePatch_shape (f : St α → Node α → Except MErr (St α))
    (hf : f = removePatchPrev ∨ f = removePatchNext)
    (s : St α) (en : Node α) :
    (∀ r, f s en = .error r → r = MErr.useAfterFree) ∧
    (∀ s2, f s en = .ok s2 → s2.length = s.length ∧ s2.head = s.head ∧
      s2.tail = s.tail ∧ s2.dlog = s.dlog ∧ s2.hasD = s.hasD ∧
      s2.nextA = s.nextA) := by
  have hcases : f s en = .ok s ∨ f s en = .error MErr.useAfterFree ∨
      ∃ pa g, f s en = .ok { s with heap := hWrite s.heap pa g } := by
    rcases hf with rfl | rfl
    · rcases removePatchPrev_cases s en with heq | heq | ⟨pa, heq⟩
      · exact Or.inl heq
      · exact Or.inr (Or.inl heq)
      · exact Or.inr (Or.inr ⟨pa, _, heq⟩)
    · rcases removePatchNext_cases s en with heq | heq | ⟨na, heq⟩
      · exact Or.inl heq
      · exact Or.inr (Or.inl heq)
      · exact Or.inr (Or.inr ⟨na, _, heq⟩)
  constructor
  · intro r h
    rcases hcases with heq | heq | ⟨pa, g, heq⟩ <;> rw [heq] at h
    · exact Except.noConfusion h
    · injection h with h
      exact h.symm
    · exact Except.noConfusion h
  · intro s2 h
    rcases hcases with heq | heq | ⟨pa, g, heq⟩ <;> rw [heq] at h
    · injection h with h
      rw [← h]
      exact ⟨rfl, rfl, rfl, rfl, rfl, rfl⟩
    · exact Except.noConfusion h
    · injection h with h
      rw [← h]
      exact ⟨rfl, rfl, rfl, rfl, rfl, rfl⟩

/-- Characterization of `removeFixHead`. -/
theorem removeFixHead_cases (s : St α) (elem : Option Nat) :
    removeFixHead s elem = .ok s ∨
    (∃ r, removeFixHead s elem = .error r ∧
      (r = MErr.nullDeref ∨ r = MErr.useAfterFree)) ∨
    ∃ v, removeFixHead s elem = .ok { s with head := v } := by
  unfold removeFixHead
  by_cases hc : elem = s.head
  · rw [if_pos hc]
    cases hd : derefP s s.head with
    | error e1 =>
      right; left
      exact ⟨e1, rfl, derefP_err hd⟩
    | ok p =>
      obtain ⟨ha, hn⟩ := p
      right; right
      exact ⟨hn.next, rfl⟩
  · left
    rw [if_neg hc]
    rfl

/-- Characterization of `removeFixTail`. -/
theorem removeFixTail_cases (s : St α) (elem : Option Nat) :
    removeFixTail s elem = .ok s ∨
    (∃ r, removeFixTail s elem = .error r ∧
      (r = MErr.nullDeref ∨ r = MErr.useAfterFree)) ∨
    ∃ v, removeFixTail s elem = .ok { s with tail := v } := by
  unfold removeFixTail
  by_cases hc : elem = s.tail
  · rw [if_pos hc]
    cases hd : derefP s s.tail with
    | error e1 =>
      right; left
      exact ⟨e1, rfl, derefP_err hd⟩
    | ok p =>
      obtain ⟨ha, hn⟩ := p
      right; right
      exact ⟨hn.prev, rfl⟩
  · left
    rw [if_neg hc]
    rfl

/-- The boundary-fixing steps only touch `head` / `tail`. -/
theorem removeFix_shape (isHead : Bool) (s : St α) (elem : Option Nat) :
    (∀ r, (if isHead then removeFixHead s elem else removeFixTail s elem) =
        .error r → r = MErr.nullDeref ∨ r = MErr.useAfterFree) ∧
    (∀ s2, (if isHead then removeFixHead s elem else removeFixTail s elem) =
        .ok s2 → s2.length = s.length ∧ s2.heap = s.heap ∧
      s2.dlog = s.dlog ∧ s2.hasD = s.hasD ∧ s2.nextA = s.nextA) := by
  cases isHead with
  | true =>
    simp only [if_pos rfl]
    constructor
    · intro r h
      rcases removeFixHead_cases s elem with heq | ⟨r2, heq, hr2⟩ | ⟨v, heq⟩ <;>
        rw [heq] at h
      · exact Except.noConfusion h
      · injection h with h
        exact h ▸ hr2
      · exact Except.noConfusion h
    · intro s2 h
      rcases removeFixHead_cases s elem with heq | ⟨r2, heq, hr2⟩ | ⟨v, heq⟩ <;>
        rw [heq] at h
      · injection h with h
        rw [← h]
        exact ⟨rfl, rfl, rfl, rfl, rfl⟩
      · exact Except.noConfusion h
      · injection h with h
        rw [← h]
        exact ⟨rfl, rfl, rfl, rfl, rfl⟩
  | false =>
    simp only [Bool.false_eq_true, if_false]
    constructor
    · intro r h
      rcases removeFixTail_cases s elem with heq | ⟨r2, heq, hr2⟩ | ⟨v, heq⟩ <;>
        rw [heq] at h
      · exact Except.noConfusion h
      · injection h with h
        exact h ▸ hr2
      · exact Except.noConfusion h
    · intro s2 h
      rcases removeFixTail_cases s elem with heq | ⟨r2, heq, hr2⟩ | ⟨v, heq⟩ <;>
        rw [heq] at h
      · injection h with h
        rw [← h]
        exact ⟨rfl, rfl, rfl, rfl, rfl⟩
      · exact Except.noConfusion h
      · injection h with h
        rw [← h]
        exact ⟨rfl, rfl, rfl, rfl, rfl⟩

/-- Shape of `LIST_REMOVE` over ALL machine states: the only errors it
can produce are dereference faults (never a spec-level EmptyListError or
ForeignNodeError — the code has no such check), its return value is the
length BEFORE the call, and it decrements `length` unconditionally,
whether or not the node belongs to the list. -/
theorem remove_shape (s : St α) (e : Option Nat) :
    (∀ r, LIST_REMOVE s e = .error r →
      r = MErr.nullDeref ∨ r = MErr.useAfterFree) ∧
    (∀ out, LIST_REMOVE s e = .ok out → out.1 = s.length ∧
      out.2.length = sizeDec s.length ∧ out.2.dlog = s.dlog ∧
      out.2.hasD = s.hasD ∧ out.2.nextA = s.nextA) := by
  have key : ∀ out2, LIST_REMOVE s e = out2 →
      (∀ r, out2 = .error r → r = MErr.nullDeref ∨ r = MErr.useAfterFree) ∧
      (∀ out, out2 = .ok out → out.1 = s.length ∧
        out.2.length = sizeDec s.length ∧ out.2.dlog = s.dlog ∧
        out.2.hasD = s.hasD ∧ out.2.nextA = s.nextA) := by
    intro out2 hout
    rw [LIST_REMOVE] at hout
    cases hd1 : derefP s e with
    | error e1 =>
      rw [hd1, exceptErrBind] at hout
      refine ⟨fun r h => ?_, fun out h => ?_⟩
      · rw [← hout] at h
        injection h with h
        exact h ▸ derefP_err hd1
      · rw [← hout] at h
        exact Except.noConfusion h
    | ok p1 =>
      obtain ⟨ea, en⟩ := p1
      rw [hd1, exceptOkBind] at hout
      dsimp only at hout
      cases hs1 : removePatchPrev s en with
      | error e1 =>
        rw [hs1, exceptErrBind] at hout
        refine ⟨fun r h => ?_, fun out h => ?_⟩
        · rw [← hout] at h
          injection h with h
          exact Or.inr (h ▸ (removePatch_shape _ (Or.inl rfl) s en).1 e1 hs1)
        · rw [← hout] at h
          exact Except.noConfusion h
      | ok s1 =>
        obtain ⟨hl1, hh1, ht1, hdl1, hD1, hna1⟩ :=
          (removePatch_shape _ (Or.inl rfl) s en).2 s1 hs1
        rw [hs1, exceptOkBind] at hout
        cases hd2 : derefP s1 e with
        | error e1 =>
          rw [hd2, exceptErrBind] at hout
          refine ⟨fun r h => ?_, fun out h => ?_⟩
          · rw [← hout] at h
            injection h with h
            exact h ▸ derefP_err hd2
          · rw [← hout] at h
            exact Except.noConfusion h
        | ok p2 =>
          obtain ⟨ea2, en2⟩ := p2
          rw [hd2, exceptOkBind] at hout
          dsimp only at hout
          cases hs2 : removePatchNext s1 en2 with
          | error e1 =>
            rw [hs2, exceptErrBind] at hout
            refine ⟨fun r h => ?_, fun out h => ?_⟩
            · rw [← hout] at h
              injection h with h
              exact Or.inr (h ▸ (removePatch_shape _ (Or.inr rfl) s1 en2).1 e1 hs2)
            · rw [← hout] at h
              exact Except.noConfusion h
          | ok s2 =>
            obtain ⟨hl2, hh2, ht2, hdl2, hD2, hna2⟩ :=
              (removePatch_shape _ (Or.inr rfl) s1 en2).2 s2 hs2
            rw [hs2, exceptOkBind] at hout
            cases hs3 : removeFixHead s2 e with
            | error e1 =>
              rw [hs3, exceptErrBind] at hout
              refine ⟨fun r h => ?_, fun out h => ?_⟩
              · rw [← hout] at h
                injection h with h
                have := (removeFix_shape true s2 e).1 e1 (by simpa using hs3)
                exact h ▸ this
              · rw [← hout] at h
                exact Except.noConfusion h
            | ok s3 =>
              obtain ⟨hl3, hp3, hdl3, hD3, hna3⟩ :=
                (removeFix_shape true s2 e).2 s3 (by simpa using hs3)
              rw [hs3, exceptOkBind] at hout
              cases hs4 : removeFixTail s3 e with
              | error e1 =>
                rw [hs4, exceptErrBind] at hout
                refine ⟨fun r h => ?_, fun out h => ?_⟩
                · rw [← hout] at h
                  injection h with h
                  have := (removeFix_shape false s3 e).1 e1 (by simpa using hs4)
                  exact h ▸ this
                · rw [← hout] at h
                  exact Except.noConfusion h
              | ok s4 =>
                obtain ⟨hl4, hp4, hdl4, hD4, hna4⟩ :=
                  (removeFix_shape false s3 e).2 s4 (by simpa using hs4)
                rw [hs4, exceptOkBind] at hout
                refine ⟨fun r h => ?_, fun out h => ?_⟩
                · rw [← hout] at h
                  exact Except.noConfusion h
                · rw [← hout] at h
                  injection h with h
                  rw [← h]
                  refine ⟨?_, ?_, ?_, ?_, ?_⟩
                  · show s4.length = s.length
                    rw [hl4, hl3, hl2, hl1]
                  · show sizeDec s4.length = sizeDec s.length
                    rw [hl4, hl3, hl2, hl1]
                  · show s4.dlog = s.dlog
                    rw [hdl4, hdl3, hdl2, hdl1]
                  · show s4.hasD = s.hasD
                    rw [hD4, hD3, hD2, hD1]
                  · show s4.nextA = s.nextA
                    rw [hna4, hna3, hna2, hna1]
  exact ⟨fun r h => (key _ h).1 r rfl, fun out h => (key _ h).2 out rfl⟩


/-- Shape of `_LIST_POP` over ALL machine states: only dereference
faults (no EmptyListError exists in the code), and the destructor log is
never touched by a pop. -/
theorem pop_shape (s : St α) (b : Bool) :
    (∀ r, LIST_POP s b = .error r →
      r = MErr.nullDeref ∨ r = MErr.useAfterFree) ∧
    (∀ out, LIST_POP s b = .ok out → out.2.dlog = s.dlog ∧
      out.2.hasD = s.hasD ∧ out.2.nextA = s.nextA) := by
  have key : ∀ out2, LIST_POP s b = out2 →
      (∀ r, out2 = .error r → r = MErr.nullDeref ∨ r = MErr.useAfterFree) ∧
      (∀ out, out2 = .ok out → out.2.dlog = s.dlog ∧
        out.2.hasD = s.hasD ∧ out.2.nextA = s.nextA) := by
    intro out2 hout
    rw [LIST_POP] at hout
    dsimp only at hout
    cases hrem : LIST_REMOVE s (if b = true then s.head else s.tail) with
    | error e1 =>
      rw [hrem, exceptErrBind] at hout
      refine ⟨fun r h => ?_, fun out h => ?_⟩
      · rw [← hout] at h
        injection h with h
        exact h ▸ (remove_shape s _).1 e1 hrem
      · rw [← hout] at h
        exact Except.noConfusion h
    | ok p1 =>
      obtain ⟨n1, s1⟩ := p1
      obtain ⟨-, -, hdl1, hD1, hna1⟩ := (remove_shape s _).2 (n1, s1) hrem
      rw [hrem, exceptOkBind] at hout
      dsimp only at hout
      cases hd : derefP s1 (if b = true then s.head else s.tail) with
      | error e1 =>
        rw [hd, exceptErrBind] at hout
        refine ⟨fun r h => ?_, fun out h => ?_⟩
        · rw [← hout] at h
          injection h with h
          exact h ▸ derefP_err hd
        · rw [← hout] at h
          exact Except.noConfusion h
      | ok p2 =>
        obtain ⟨ta, tn⟩ := p2
        rw [hd, exceptOkBind] at hout
        refine ⟨fun r h => ?_, fun out h => ?_⟩
        · rw [← hout] at h
          exact Except.noConfusion h
        · rw [← hout] at h
          injection h with h
          rw [← h]
          exact ⟨hdl1, hD1, hna1⟩
  exact ⟨fun r h => (key _ h).1 r rfl, fun out h => (key _ h).2 out rfl⟩

/-- Shape of `LIST_DEL` over ALL machine states: only dereference
faults — in particular there is no ForeignNodeError path. -/
theorem del_shape (s : St α) (e : Option Nat) :
    ∀ r, LIST_DEL s e = .error r →
      r = MErr.nullDeref ∨ r = MErr.useAfterFree := by
  have key : ∀ out2, LIST_DEL s e = out2 →
      ∀ r, out2 = .error r → r = MErr.nullDeref ∨ r = MErr.useAfterFree := by
    intro out2 hout
    rw [LIST_DEL] at hout
    cases hrem : LIST_REMOVE s e with
    | error e1 =>
      rw [hrem, exceptErrBind] at hout
      intro r h
      rw [← hout] at h
      injection h with h
      exact h ▸ (remove_shape s e).1 e1 hrem
    | ok p1 =>
      obtain ⟨n1, s1⟩ := p1
      rw [hrem, exceptOkBind] at hout
      dsimp only at hout
      cases hD : s1.hasD with
      | false =>
        rw [hD] at hout
        simp only [Bool.false_eq_true, if_false, exceptPure, exceptOkBind]
          at hout
        intro r h
        rw [← hout] at h
        cases e with
        | none => exact Except.noConfusion h
        | some a => exact Except.noConfusion h
      | true =>
        rw [hD] at hout
        simp only [if_true, exceptOkBind] at hout
        cases hd : derefP s1 e with
        | error e1 =>
          rw [hd, exceptErrBind] at hout
          intro r h
          rw [← hout] at h
          injection h with h
          exact h ▸ derefP_err hd
        | ok p2 =>
          obtain ⟨ea, en⟩ := p2
          rw [hd, exceptOkBind] at hout
          dsimp only at hout
          intro r h
          rw [← hout] at h
          cases e with
          | none => exact Except.noConfusion h
          | some a => exact Except.noConfusion h
  exact fun r h => key _ h r rfl


/-- `_LIST_POP` on a list whose boundary pointer is NULL passes NULL to
`LIST_REMOVE`, whose very first action dereferences it: a null-pointer
fault, not a reported error. -/
theorem popF_empty (s : St α) (hhd : s.head = none) :
    LIST_POPF s = .error MErr.nullDeref := by
  rw [LIST_POPF, LIST_POP]
  dsimp only
  rw [show (if (true : Bool) = true then s.head else s.tail) = s.head from rfl,
    hhd]
  rfl

theorem popB_empty (s : St α) (htl : s.tail = none) :
    LIST_POPB s = .error MErr.nullDeref := by
  rw [LIST_POPB, LIST_POP]
  dsimp only
  rw [show (if (false : Bool) = true then s.head else s.tail) = s.tail from rfl,
    htl]
  rfl

/-- The states reachable by the defined-behaviour API: construction
(with the initializer length honest), append, prepend, remove and delete
of a live member node (the spec precondition — a foreign node is
undefined behaviour), pops, and destroy.  Faulting executions produce no
state.  Membership is phrased by the forward walk of the list itself. -/
inductive Reach {α : Type} : St α → Prop where
  | construct (init : Option (List α)) (len : Nat) (d : Bool) (s : St α)
      (hinit : ∀ arr, init = some arr → len ≤ arr.length)
      (h : new_list init len d = .ok s) : Reach s
  | append (s : St α) (e : α) (n : Nat) (s2 : St α) (hr : Reach s)
      (h : LIST_APPEND s e = .ok (n, s2)) : Reach s2
  | prepend (s : St α) (e : α) (n : Nat) (s2 : St α) (hr : Reach s)
      (h : LIST_PREPEND s e = .ok (n, s2)) : Reach s2
  | remove (s : St α) (a : Nat) (n : Nat) (s2 : St α) (hr : Reach s)
      (hmem : a ∈ walkDir s.heap true s.head s.length)
      (h : LIST_REMOVE s (some a) = .ok (n, s2)) : Reach s2
  | del (s : St α) (a : Nat) (s2 : St α) (hr : Reach s)
      (hmem : a ∈ walkDir s.heap true s.head s.length)
      (h : LIST_DEL s (some a) = .ok s2) : Reach s2
  | popf (s : St α) (v : α) (s2 : St α) (hr : Reach s)
      (h : LIST_POPF s = .ok (v, s2)) : Reach s2
  | popb (s : St α) (v : α) (s2 : St α) (hr : Reach s)
      (h : LIST_POPB s = .ok (v, s2)) : Reach s2
  | destroy (s s2 : St α) (hr : Reach s)
      (h : LIST_DESTROY s = .ok s2) : Reach s2

/-- Every reachable state is well-formed: some address list represents
it. -/
theorem reach_Wf {α : Type} {s : St α} (h : Reach s) :
    ∃ addrs, Wf s addrs := by
  induction h with
  | construct init len d s hinit h =>
    cases init with
    | none =>
      rw [new_list_none] at h
      injection h with h
      exact ⟨[], h ▸ Wf_emptySt d⟩
    | some arr =>
      obtain ⟨s2, hok, hwf, -⟩ := new_list_some_ok arr len d (hinit arr rfl)
      rw [hok] at h
      injection h with h
      exact ⟨_, h ▸ hwf⟩
  | append s e n s2 hr h ih =>
    obtain ⟨addrs, hwf⟩ := ih
    obtain ⟨s3, hok, hwf2, -⟩ := append_ok s addrs e hwf
    rw [hok] at h
    injection h with h
    injection h with h1 h2
    exact ⟨_, h2 ▸ hwf2⟩
  | prepend s e n s2 hr h ih =>
    obtain ⟨addrs, hwf⟩ := ih
    obtain ⟨s3, hok, hwf2, -⟩ := prepend_ok s addrs e hwf
    rw [hok] at h
    injection h with h
    injection h with h1 h2
    exact ⟨_, h2 ▸ hwf2⟩
  | remove s a n s2 hr hmem h ih =>
    obtain ⟨addrs, hwf⟩ := ih
    have hwalk := (walk_of_Wf hwf s.length le_rfl).1
    rw [hwalk] at hmem
    obtain ⟨l1, l2, rfl⟩ := List.append_of_mem hmem
    obtain ⟨s3, hok, hwf2, -⟩ := remove_ok s l1 l2 a hwf
    rw [hok] at h
    injection h with h
    injection h with h1 h2
    exact ⟨_, h2 ▸ hwf2⟩
  | del s a s2 hr hmem h ih =>
    obtain ⟨addrs, hwf⟩ := ih
    have hwalk := (walk_of_Wf hwf s.length le_rfl).1
    rw [hwalk] at hmem
    obtain ⟨l1, l2, rfl⟩ := List.append_of_mem hmem
    obtain ⟨s3, v, hok, -, hwf2, -⟩ := del_ok s l1 l2 a hwf
    rw [hok] at h
    injection h with h
    exact ⟨_, h ▸ hwf2⟩
  | popf s v s2 hr h ih =>
    obtain ⟨addrs, hwf⟩ := ih
    cases addrs with
    | nil =>
      rw [popF_empty s (by simpa using hwf.2.1)] at h
      exact Except.noConfusion h
    | cons a rest =>
      obtain ⟨v2, s3, hok, -, hwf2, -⟩ := popF_ok s a rest hwf
      rw [hok] at h
      injection h with h
      injection h with h1 h2
      exact ⟨_, h2 ▸ hwf2⟩
  | popb s v s2 hr h ih =>
    obtain ⟨addrs, hwf⟩ := ih
    rcases List.eq_nil_or_concat addrs with rfl | ⟨front, a, hc⟩
    · rw [popB_empty s (by simpa using hwf.2.2.1)] at h
      exact Except.noConfusion h
    · rw [List.concat_eq_append] at hc
      subst hc
      obtain ⟨v2, s3, hok, -, hwf2, -⟩ := popB_ok s a front hwf
      rw [hok] at h
      injection h with h
      injection h with h1 h2
      exact ⟨_, h2 ▸ hwf2⟩
  | destroy s s2 hr h ih =>
    obtain ⟨addrs, hwf⟩ := ih
    obtain ⟨s3, hok, hwf2, -⟩ := destroy_ok s addrs hwf
    rw [hok] at h
    injection h with h
    exact ⟨_, h ▸ hwf2⟩


theorem valsOf_reverse (h : List (Nat × Node α)) (l : List Nat) :
    valsOf h l.reverse = (valsOf h l).reverse := by
  induction l with
  | nil => rfl
  | cons a t ih =>
    rw [List.reverse_cons, valsOf_append, valsOf_cons, valsOf_cons, ih]
    cases hGet h a <;> simp

/-! ## The claims -/

/-- Claim C1 (amended): `src/list.h` has no EmptyListError.  On a list
whose `head` (resp. `tail`) pointer is NULL, `LIST_POPF` (resp.
`LIST_POPB`) hands the NULL pointer to `LIST_REMOVE`, which dereferences
it — `(elem)->prev` — so the embedded pop faults with a null-pointer
dereference (undefined behaviour in the C source) instead of reporting
an EmptyListError; no pop ever produces the spec-level EmptyListError
value. -/
theorem claim_C1 {α : Type} :
    (∀ s : St α, s.head = none → LIST_POPF s = .error MErr.nullDeref) ∧
    (∀ s : St α, s.tail = none → LIST_POPB s = .error MErr.nullDeref) ∧
    (∀ (s : St α) (b : Bool), LIST_POP s b ≠ .error MErr.emptyList) := by
  refine ⟨popF_empty, popB_empty, ?_⟩
  intro s b h
  rcases (pop_shape s b).1 _ h with h2 | h2 <;> exact MErr.noConfusion h2

/-- Witness for C1 at the concrete empty int list. -/
theorem claim_C1_witness :
    LIST_POPF (emptySt (α := Int) false) = .error MErr.nullDeref ∧
    LIST_POPB (emptySt (α := Int) false) = .error MErr.nullDeref ∧
    LIST_POP (emptySt (α := Int) false) true ≠ .error MErr.emptyList := by
  have h := claim_C1 (α := Int)
  exact ⟨h.1 _ (by decide), h.2.1 _ (by decide), h.2.2 _ true⟩

/-- Counterexample to C1 as stated: popping the empty list does not
fail with an EmptyListError — it is a null-pointer dereference. -/
theorem claim_C1_counterexample :
    LIST_POPF (emptySt (α := Int) false) = .error MErr.nullDeref ∧
    LIST_POPF (emptySt (α := Int) false) ≠ .error MErr.emptyList ∧
    LIST_POPB (emptySt (α := Int) false) ≠ .error MErr.emptyList := by
  decide

/-- The concrete one-element list (entry 5) deciding claim C2. -/
def sC2 : St Int :=
  { heap := [(0, ⟨none, none, 5⟩)], nextA := 1, head := some 0,
    tail := some 0, length := 1, hasD := false, dlog := [] }

/-- Claim C2 (code bug): `LIST_REMOVE` ends with `(list)->length--`, a
POST-decrement, so the statement expression returns the length BEFORE
the call — here 1 — although the new length is 0 and the doc comment of the macro itself says "@return size_t new length of list".  (Compare
`_LIST_ADD`, which correctly returns `++(list)->length`.)  The rest of
the claim holds: the node is unlinked, its value untouched, no
destructor runs. -/
theorem claim_C2 :
    Wf sC2 [0] ∧
    LIST_REMOVE sC2 (some 0) =
      .ok (1, { sC2 with head := none, tail := none, length := 0 }) ∧
    (1 : Nat) ≠ ({ sC2 with head := none, tail := none, length := 0 } : St Int).length ∧
    hGet ({ sC2 with head := none, tail := none, length := 0 } : St Int).heap 0 =
      some ⟨none, none, 5⟩ ∧
    ({ sC2 with head := none, tail := none, length := 0 } : St Int).dlog = [] := by
  decide

/-- Claim C3: constructing a list from a sequence `S` and then walking
forward from `head` via `next` (the `_LIST_FOR_EACH` order) visits
exactly the elements of `S` in order; the reverse walk from `tail` via
`prev` visits `S` reversed.  Any fuel bound of at least `S.length`
covers the whole walk. -/
theorem claim_C3 {α : Type} (S : List α) (d : Bool) :
    ∃ s, new_list (some S) S.length d = .ok s ∧
      ∀ fuel, S.length ≤ fuel →
        valsOf s.heap (walkDir s.heap true s.head fuel) = S ∧
        valsOf s.heap (walkDir s.heap false s.tail fuel) = S.reverse := by
  obtain ⟨s, hok, hwf, hvals, -, -, hlen⟩ := new_list_some_ok S S.length d le_rfl
  refine ⟨s, hok, ?_⟩
  intro fuel hf
  have hw := walk_of_Wf hwf fuel (by rw [hlen]; exact hf)
  constructor
  · rw [hw.1, hvals, List.take_length]
  · rw [hw.2, valsOf_reverse, hvals, List.take_length]

/-- Witness for C3 on the concrete sequence `[1, 2, 3]`. -/
theorem claim_C3_witness :
    ∃ s, new_list (some [(1 : Int), 2, 3]) 3 false = .ok s ∧
      valsOf s.heap (walkDir s.heap true s.head 3) = [1, 2, 3] ∧
      valsOf s.heap (walkDir s.heap false s.tail 3) = [3, 2, 1] := by
  obtain ⟨s, hok, hw⟩ := claim_C3 [(1 : Int), 2, 3] false
  exact ⟨s, hok, (hw 3 (by decide)).1, by
    have := (hw 3 (by decide)).2
    simpa using this⟩

/-- Claim C4: on any well-formed list, `LIST_APPEND` and `LIST_PREPEND`
increase `length` by exactly 1 and return the new length; on an empty
list the new node becomes both head and tail; otherwise append hooks it
after the current tail (becoming the new tail) and prepend before the
current head (becoming the new head), updating the two affected link
fields symmetrically (`top->direction = new`, `new->reverse = top`). -/
theorem claim_C4 {α : Type} (s : St α) (addrs : List Nat) (e : α)
    (hwf : Wf s addrs) :
    (∃ s2, LIST_APPEND s e = .ok (s.length + 1, s2) ∧
      s2.length = s.length + 1 ∧ Wf s2 (addrs ++ [s.nextA]) ∧
      s2.tail = some s.nextA ∧
      s2.head = (if addrs = [] then some s.nextA else s.head) ∧
      hGet s2.heap s.nextA = some ⟨none, s.tail, e⟩ ∧
      (∀ t tn, s.tail = some t → hGet s.heap t = some tn →
        hGet s2.heap t = some { tn with next := some s.nextA })) ∧
    (∃ s2, LIST_PREPEND s e = .ok (s.length + 1, s2) ∧
      s2.length = s.length + 1 ∧ Wf s2 (s.nextA :: addrs) ∧
      s2.head = some s.nextA ∧
      s2.tail = (if addrs = [] then some s.nextA else s.tail) ∧
      hGet s2.heap s.nextA = some ⟨s.head, none, e⟩ ∧
      (∀ b bn, s.head = some b → hGet s.heap b = some bn →
        hGet s2.heap b = some { bn with prev := some s.nextA })) := by
  constructor
  · obtain ⟨s2, hok, hwf2, hlen2, htl2, hhd2, hnew, hpatch, -⟩ :=
      append_ok s addrs e hwf
    exact ⟨s2, hok, hlen2, hwf2, htl2, hhd2, hnew, hpatch⟩
  · obtain ⟨s2, hok, hwf2, hlen2, hhd2, htl2, hnew, hpatch, -⟩ :=
      prepend_ok s addrs e hwf
    exact ⟨s2, hok, hlen2, hwf2, hhd2, htl2, hnew, hpatch⟩

/-- Witness for C4 at the concrete empty int list. -/
theorem claim_C4_witness :
    Wf (emptySt (α := Int) false) [] ∧
    (∃ s2, LIST_APPEND (emptySt (α := Int) false) 5 = .ok (1, s2) ∧
      s2.head = some 0 ∧ s2.tail = some 0) := by
  have h := claim_C4 (emptySt (α := Int) false) [] 5 (by decide)
  obtain ⟨⟨s2, hok, -, -, htl, hhd, -⟩, -⟩ := h
  refine ⟨by decide, s2, by simpa using hok, by simpa using hhd, by simpa using htl⟩

/-- Claim C5: on any well-formed non-empty list, `LIST_POPF` returns the
value stored at the current head node and `LIST_POPB` the value at the
current tail node; each decreases `length` by exactly 1, frees the
boundary node, leaves the remaining list well-formed, and never invokes
the destructor (the invocation log is unchanged). -/
theorem claim_C5 {α : Type} :
    (∀ (s : St α) (a : Nat) (rest : List Nat), Wf s (a :: rest) →
      ∃ n s2, s.head = some a ∧ hGet s.heap a = some n ∧
        LIST_POPF s = .ok (n.entry, s2) ∧ s2.length = s.length - 1 ∧
        s.length = rest.length + 1 ∧ Wf s2 rest ∧ hGet s2.heap a = none ∧
        s2.dlog = s.dlog) ∧
    (∀ (s : St α) (a : Nat) (front : List Nat), Wf s (front ++ [a]) →
      ∃ n s2, s.tail = some a ∧ hGet s.heap a = some n ∧
        LIST_POPB s = .ok (n.entry, s2) ∧ s2.length = s.length - 1 ∧
        s.length = front.length + 1 ∧ Wf s2 front ∧ hGet s2.heap a = none ∧
        s2.dlog = s.dlog) := by
  constructor
  · intro s a rest hwf
    obtain ⟨v, s2, hok, hent, hwf2, hlen2, hgone, -, hdlog, -, -⟩ :=
      popF_ok s a rest hwf
    cases hga : hGet s.heap a with
    | none => rw [hga] at hent; exact Option.noConfusion hent
    | some n =>
      rw [hga] at hent
      injection hent with hent
      refine ⟨n, s2, by simpa using hwf.2.1, rfl, hent ▸ hok, hlen2, ?_,
        hwf2, hgone, hdlog⟩
      rw [hwf.2.2.2.1]
      rfl
  · intro s a front hwf
    obtain ⟨v, s2, hok, hent, hwf2, hlen2, hgone, -, hdlog, -, -⟩ :=
      popB_ok s a front hwf
    cases hga : hGet s.heap a with
    | none => rw [hga] at hent; exact Option.noConfusion hent
    | some n =>
      rw [hga] at hent
      injection hent with hent
      refine ⟨n, s2, ?_, rfl, hent ▸ hok, hlen2, ?_, hwf2, hgone, hdlog⟩
      · rw [hwf.2.2.1, List.getLast?_concat]
      · rw [hwf.2.2.2.1]
        simp

/-- A concrete two-element list (entries 10, 20). -/
def sC5 : St Int :=
  { heap := [(1, ⟨none, some 0, 20⟩), (0, ⟨some 1, none, 10⟩)], nextA := 2,
    head := some 0, tail := some 1, length := 2, hasD := false, dlog := [] }

/-- Witness for C5 at a concrete two-element list built by the
constructor. -/
theorem claim_C5_witness :
    ∃ s2, Wf sC5 [0, 1] ∧ LIST_POPF sC5 = .ok (10, s2) ∧ s2.length = 1 := by
  obtain ⟨h1, -⟩ := claim_C5 (α := Int)
  obtain ⟨n, s2, -, hga, hok, hlen, -, -, -, -⟩ := h1 sC5 0 [1] (by decide)
  have hn : n = ⟨some 1, none, 10⟩ := by
    rw [show hGet sC5.heap 0 = some ⟨some 1, none, 10⟩ from by decide] at hga
    injection hga with hga
    exact hga.symm
  refine ⟨s2, by decide, ?_, ?_⟩
  · rw [hn] at hok
    exact hok
  · rw [hlen]
    rfl


/-- Claim C6: bookkeeping of destructor invocations (`dlog` records the
values the configured destructor is invoked on, in order).  Remove and
the pops never invoke it — on ANY state, not just well-formed ones.
Delete invokes it exactly once, on the value of the deleted element, when a
destructor is configured, and not at all otherwise.  Destroy invokes it
exactly once per element, and never when no destructor is configured. -/
theorem claim_C6 {α : Type} :
    (∀ (s : St α) (e : Option Nat) (out : Nat × St α),
      LIST_REMOVE s e = .ok out → out.2.dlog = s.dlog) ∧
    (∀ (s : St α) (b : Bool) (out : α × St α),
      LIST_POP s b = .ok out → out.2.dlog = s.dlog) ∧
    (∀ (s : St α) (l1 l2 : List Nat) (a : Nat), Wf s (l1 ++ a :: l2) →
      s.hasD = true → ∃ s2 v, LIST_DEL s (some a) = .ok s2 ∧
        (hGet s.heap a).map Node.entry = some v ∧
        s2.dlog = s.dlog ++ [v]) ∧
    (∀ (s : St α) (l1 l2 : List Nat) (a : Nat), Wf s (l1 ++ a :: l2) →
      s.hasD = false → ∃ s2, LIST_DEL s (some a) = .ok s2 ∧
        s2.dlog = s.dlog) ∧
    (∀ (s : St α) (addrs : List Nat), Wf s addrs →
      ∃ s2, LIST_DESTROY s = .ok s2 ∧
        s2.dlog = s.dlog ++ (if s.hasD then valsOf s.heap addrs else [])) := by
  refine ⟨?_, ?_, ?_, ?_, ?_⟩
  · intro s e out h
    exact ((remove_shape s e).2 out h).2.2.1
  · intro s b out h
    exact ((pop_shape s b).2 out h).1
  · intro s l1 l2 a hwf hD
    obtain ⟨s2, v, hok, hent, -, -, -, -, hdlog, -, -⟩ := del_ok s l1 l2 a hwf
    rw [hD] at hdlog
    exact ⟨s2, v, hok, hent, by simpa using hdlog⟩
  · intro s l1 l2 a hwf hD
    obtain ⟨s2, v, hok, -, -, -, -, -, hdlog, -, -⟩ := del_ok s l1 l2 a hwf
    rw [hD] at hdlog
    exact ⟨s2, hok, by simpa using hdlog⟩
  · intro s addrs hwf
    obtain ⟨s2, hok, -, -, -, -, hdlog, -, -⟩ := destroy_ok s addrs hwf
    exact ⟨s2, hok, hdlog⟩

/-- A concrete two-element list (entries 10, 20) with a configured
destructor. -/
def sC6 : St Int :=
  { heap := [(1, ⟨none, some 0, 20⟩), (0, ⟨some 1, none, 10⟩)], nextA := 2,
    head := some 0, tail := some 1, length := 2, hasD := true, dlog := [] }

/-- Witness for C6: deleting the head of a concrete list with a
configured destructor logs exactly its value. -/
theorem claim_C6_witness :
    ∃ s2, LIST_DEL sC6 (some 0) = .ok s2 ∧ s2.dlog = [10] := by
  obtain ⟨-, -, h3, -, -⟩ := claim_C6 (α := Int)
  obtain ⟨s2, v, hok, hent, hdlog⟩ := h3 sC6 [] [1] 0 (by decide) (by decide)
  have hv : v = 10 := by
    rw [show hGet sC6.heap 0 = some ⟨some 1, none, 10⟩ from by decide] at hent
    injection hent with hent
    exact hent.symm
  exact ⟨s2, hok, by rw [hdlog, hv]; decide⟩

/-- Claim C7: every state reachable by any defined-behaviour sequence of
construct / append / prepend / remove / delete / pop / destroy
operations satisfies the structural invariant: `head` is NULL iff `tail`
is NULL iff `length = 0`; with `length = 1` head and tail coincide; the
forward walk (head, following `next`) and the backward walk (tail,
following `prev`) visit the same nodes in mutually reversed order, and
the number of nodes walked equals `length`. -/
theorem claim_C7 {α : Type} (s : St α) (h : Reach s) :
    ∃ addrs, Wf s addrs ∧
      (s.head = none ↔ s.length = 0) ∧
      (s.tail = none ↔ s.length = 0) ∧
      (s.length = 1 → s.head = s.tail ∧ s.head ≠ none) ∧
      ∀ fuel, s.length ≤ fuel →
        walkDir s.heap true s.head fuel = addrs ∧
        walkDir s.heap false s.tail fuel = addrs.reverse ∧
        (walkDir s.heap true s.head fuel).length = s.length := by
  obtain ⟨addrs, hwf⟩ := reach_Wf h
  have hhd := hwf.2.1
  have htl := hwf.2.2.1
  have hlen := hwf.2.2.2.1
  refine ⟨addrs, hwf, ?_, ?_, ?_, ?_⟩
  · rw [hhd, hlen]
    cases addrs <;> simp
  · rw [htl, hlen]
    rcases List.eq_nil_or_concat addrs with rfl | ⟨front, a, hc⟩
    · simp
    · rw [List.concat_eq_append] at hc
      subst hc
      rw [List.getLast?_concat]
      simp
  · intro hl
    rw [hlen] at hl
    obtain ⟨a, rfl⟩ := List.length_eq_one.mp hl
    rw [hhd, htl]
    exact ⟨rfl, by simp⟩
  · intro fuel hf
    have hw := walk_of_Wf hwf fuel hf
    exact ⟨hw.1, hw.2, by rw [hw.1, hlen]⟩

/-- The concrete one-element list reached by appending 7 to the empty
list. -/
def sC7 : St Int :=
  { heap := [(0, ⟨none, none, 7⟩)], nextA := 1, head := some 0,
    tail := some 0, length := 1, hasD := false, dlog := [] }

/-- Witness for C7: a state reached by constructing an empty list and
appending one element. -/
theorem claim_C7_witness :
    ∃ addrs, Wf sC7 addrs ∧ (sC7.head = none ↔ sC7.length = 0) ∧
      walkDir sC7.heap true sC7.head 1 = addrs := by
  have hreach : Reach sC7 :=
    Reach.append (emptySt false) 7 1 sC7
      (Reach.construct none 0 false (emptySt false)
        (fun arr hh => Option.noConfusion hh) rfl)
      (by decide)
  obtain ⟨addrs, hwf, h1, -, -, h4⟩ := claim_C7 sC7 hreach
  exact ⟨addrs, hwf, h1, ((h4 1 (by decide)).1)⟩

/-- Claim C8: `LIST_DESTROY` is a deletion-safe forward traversal that
deletes every node, invoking the destructor (when configured) on each
element in head-to-tail order; afterwards `length = 0` and both
boundaries are NULL.  On an already-empty list it is a no-op, so it is
idempotent. -/
theorem claim_C8 {α : Type} :
    (∀ (s : St α) (addrs : List Nat), Wf s addrs →
      ∃ s2, LIST_DESTROY s = .ok s2 ∧ s2.length = 0 ∧ s2.head = none ∧
        s2.tail = none ∧ Wf s2 [] ∧
        s2.dlog = s.dlog ++ (if s.hasD then valsOf s.heap addrs else [])) ∧
    (∀ s : St α, s.head = none → LIST_DESTROY s = .ok s) := by
  constructor
  · intro s addrs hwf
    obtain ⟨s2, hok, hwf2, hh2, ht2, hl2, hdlog, -, -⟩ := destroy_ok s addrs hwf
    exact ⟨s2, hok, hl2, hh2, ht2, hwf2, hdlog⟩
  · exact destroy_empty_noop

/-- A concrete two-element list (entries 10, 20) with a configured
destructor. -/
def sC8 : St Int :=
  { heap := [(1, ⟨none, some 0, 20⟩), (0, ⟨some 1, none, 10⟩)], nextA := 2,
    head := some 0, tail := some 1, length := 2, hasD := true, dlog := [] }

/-- Witness for C8 at a concrete two-element list with a configured
destructor: both elements are logged in head-to-tail order and the
result is empty; destroying the empty sentinel is the identity. -/
theorem claim_C8_witness :
    (∃ s2, LIST_DESTROY sC8 = .ok s2 ∧ s2.length = 0 ∧ s2.head = none ∧
      s2.dlog = [10, 20]) ∧
    LIST_DESTROY (emptySt (α := Int) true) = .ok (emptySt true) := by
  obtain ⟨h1, h2⟩ := claim_C8 (α := Int)
  obtain ⟨s2, hok, hl2, hh2, -, -, hdlog⟩ := h1 sC8 [0, 1] (by decide)
  refine ⟨⟨s2, hok, hl2, hh2, ?_⟩, h2 _ (by decide)⟩
  rw [hdlog]
  decide

/-- Claim C9 (amended): `LIST_REMOVE` and `LIST_DEL` contain no
membership check whatsoever: they can never produce the spec-level
ForeignNodeError (the only failures are dereference faults), and
whenever `LIST_REMOVE` returns at all it has decremented `length`,
member node or not — the original code leaves a foreign node as
undefined behaviour and silently corrupts the state instead of
reporting it. -/
theorem claim_C9 {α : Type} :
    (∀ (s : St α) (e : Option Nat),
      LIST_REMOVE s e ≠ .error MErr.foreignNode) ∧
    (∀ (s : St α) (e : Option Nat), LIST_DEL s e ≠ .error MErr.foreignNode) ∧
    (∀ (s : St α) (e : Option Nat) (out : Nat × St α),
      LIST_REMOVE s e = .ok out →
      out.1 = s.length ∧ out.2.length = sizeDec s.length) := by
  refine ⟨?_, ?_, ?_⟩
  · intro s e h
    rcases (remove_shape s e).1 _ h with h2 | h2 <;> exact MErr.noConfusion h2
  · intro s e h
    rcases del_shape s e _ h with h2 | h2 <;> exact MErr.noConfusion h2
  · intro s e out h
    obtain ⟨h1, h2, -⟩ := (remove_shape s e).2 out h
    exact ⟨h1, h2⟩

/-- A well-formed one-element list (member chain: node 1 holding 20)
whose heap still carries node 0 (holding 10), previously unlinked: node
0 is live but foreign to the list. -/
def sC9 : St Int :=
  { heap := [(0, ⟨some 1, none, 10⟩), (1, ⟨none, none, 20⟩)], nextA := 2,
    head := some 1, tail := some 1, length := 1, hasD := false, dlog := [] }

/-- Witness for the amended theorem of C9 at a concrete input. -/
theorem claim_C9_witness :
    LIST_REMOVE sC9 (some 0) ≠ .error MErr.foreignNode ∧
    LIST_DEL sC9 (some 0) ≠ .error MErr.foreignNode := by
  have h := claim_C9 (α := Int)
  exact ⟨h.1 sC9 (some 0), h.2.1 sC9 (some 0)⟩

/-- Counterexample to C9 as stated: `sC9` is a well-formed one-element
list (the live chain is node 1 only), while node 0 is still allocated
but NOT a member — it was unlinked earlier and its stale links survive.
`LIST_REMOVE` on this foreign node does not fail with any reported
error: it returns `.ok` and decrements `length` to 0 while `head` still
points at node 1, corrupting the state (no address list represents the
result). -/
theorem claim_C9_counterexample :
    Wf sC9 [1] ∧
    hGet sC9.heap 0 = some ⟨some 1, none, 10⟩ ∧
    (0 : Nat) ∉ walkDir sC9.heap true sC9.head sC9.length ∧
    LIST_REMOVE sC9 (some 0) = .ok (1, { sC9 with length := 0 }) ∧
    ({ sC9 with length := 0 } : St Int).head = some 1 ∧
    ¬ Wf ({ sC9 with length := 0 } : St Int) [] ∧
    ¬ Wf ({ sC9 with length := 0 } : St Int) [1] := by
  decide

/-- Claim C10: with a NULL initializer the constructor returns the empty
sentinel — head and tail NULL, length 0, the destructor argument stored
— for EVERY value of `len` (the result does not mention `len`).  With a
non-NULL initializer, `len` is exactly the number of elements appended:
the first `len` initializer entries, in order. -/
theorem claim_C10 {α : Type} :
    (∀ (len : Nat) (d : Bool), new_list (α := α) none len d =
      .ok { heap := [], nextA := 0, head := none, tail := none,
            length := 0, hasD := d, dlog := [] }) ∧
    (∀ (arr : List α) (len : Nat) (d : Bool), len ≤ arr.length →
      ∃ s2, new_list (some arr) len d = .ok s2 ∧ s2.length = len ∧
        Wf s2 (List.range' 0 len) ∧
        valsOf s2.heap (List.range' 0 len) = arr.take len ∧
        s2.hasD = d) := by
  constructor
  · intro len d
    rfl
  · intro arr len d hlen
    obtain ⟨s2, hok, hwf, hvals, hD, -, hl⟩ := new_list_some_ok arr len d hlen
    exact ⟨s2, hok, hl, hwf, hvals, hD⟩

/-- Witness for C10: the NULL-initializer result ignores `len`; a
non-NULL initializer of length 3 with `len = 2` appends exactly the
first two elements. -/
theorem claim_C10_witness :
    new_list (α := Int) none 42 true =
      .ok { heap := [], nextA := 0, head := none, tail := none,
            length := 0, hasD := true, dlog := [] } ∧
    ∃ s2, new_list (some [(7 : Int), 8, 9]) 2 false = .ok s2 ∧
      s2.length = 2 ∧ valsOf s2.heap (List.range' 0 2) = [7, 8] := by
  obtain ⟨h1, h2⟩ := claim_C10 (α := Int)
  obtain ⟨s2, hok, hl, -, hvals, -⟩ := h2 [(7 : Int), 8, 9] 2 false (by decide)
  exact ⟨h1 42 true, s2, hok, hl, by rw [hvals]; decide⟩
